import Mathlib

/-!
Verification of the reconciliation engine of the `Renamer` repository
(`rename_images_watcher.py`, the original implementation, and
`rename_images_watcher_CORRECTED.py`, the corrected implementation).

File names are modelled as `List Char`; a directory is the list of its
entries in enumeration (`os.listdir`) order.  Machine-level concerns
(actual bytes on disk, wall-clock time) are abstracted: an entry carries
the observable outcomes of the accessibility probes the code performs
(`is_file`, `exists`, `stat`, `st_size`, the one-byte read) and its
creation timestamp, which the code only uses as an ordering key.
-/

/-- A file name, as a list of characters (Python `str`). -/
abbrev FName := List Char

/-- The upper-case/lower-case ASCII letter pairs. -/
def asciiCaseTable : List (Char × Char) :=
  [('A', 'a'), ('B', 'b'), ('C', 'c'), ('D', 'd'), ('E', 'e'), ('F', 'f'),
   ('G', 'g'), ('H', 'h'), ('I', 'i'), ('J', 'j'), ('K', 'k'), ('L', 'l'),
   ('M', 'm'), ('N', 'n'), ('O', 'o'), ('P', 'p'), ('Q', 'q'), ('R', 'r'),
   ('S', 's'), ('T', 't'), ('U', 'u'), ('V', 'v'), ('W', 'w'), ('X', 'x'),
   ('Y', 'y'), ('Z', 'z')]

/-- ASCII lower-casing of one character, as Python `str.lower` acts on
ASCII input (all characters relevant to the watcher are ASCII). -/
def asciiLower (c : Char) : Char :=
  match asciiCaseTable.find? (fun p => decide (p.1 = c)) with
  | some p => p.2
  | none => c

/-- Python `s.lower()` on a whole name. -/
def lowerL (nm : FName) : FName := nm.map asciiLower

theorem asciiLower_eq_find (c : Char) :
    asciiLower c = match asciiCaseTable.find? (fun p => decide (p.1 = c)) with
      | some p => p.2
      | none => c := rfl

theorem asciiLower_ne_underscore_of_ne (c : Char) (h : c ≠ '_') :
    asciiLower c ≠ '_' := by
  rw [asciiLower_eq_find]
  cases hf : asciiCaseTable.find? (fun p => decide (p.1 = c)) with
  | none => exact h
  | some p =>
    have hmem := List.mem_of_find?_eq_some hf
    have : ∀ q ∈ asciiCaseTable, q.2 ≠ '_' := by decide
    exact this p hmem

theorem asciiLower_eq_dot_iff (c : Char) : asciiLower c = '.' ↔ c = '.' := by
  constructor
  · intro h
    rw [asciiLower_eq_find] at h
    cases hf : asciiCaseTable.find? (fun p => decide (p.1 = c)) with
    | none => rw [hf] at h; exact h
    | some p =>
      rw [hf] at h
      have hmem := List.mem_of_find?_eq_some hf
      have hall : ∀ q ∈ asciiCaseTable, q.2 ≠ '.' := by decide
      exact absurd h (hall p hmem)
  · intro h; subst h; decide

/-- Decimal digits, fuel-driven helper (structural recursion so that
everything evaluates by kernel reduction). -/
def decDigitsAux : Nat → Nat → List Char
  | 0, _ => []
  | fuel + 1, n =>
    if n < 10 then [Nat.digitChar n]
    else decDigitsAux fuel (n / 10) ++ [Nat.digitChar (n % 10)]

/-- Decimal digits of a natural number, most significant first
(the characters of Python `str(n)` / `repr(n)`). -/
def decDigits (n : Nat) : List Char := decDigitsAux (n + 1) n

theorem decDigitsAux_irrel (n : Nat) : ∀ f1 f2, n < f1 → n < f2 →
    decDigitsAux f1 n = decDigitsAux f2 n := by
  induction n using Nat.strong_induction_on with
  | _ n ih =>
    intro f1 f2 h1 h2
    cases f1 with
    | zero => omega
    | succ f1 =>
      cases f2 with
      | zero => omega
      | succ f2 =>
        rw [decDigitsAux, decDigitsAux]
        split_ifs with h
        · rfl
        · have hd : n / 10 < n := Nat.div_lt_self (by omega) (by omega)
          rw [ih (n / 10) hd f1 f2 (by omega) (by omega)]

/-- The defining recursion of `decDigits`. -/
theorem decDigits_eq (n : Nat) :
    decDigits n = if n < 10 then [Nat.digitChar n]
      else decDigits (n / 10) ++ [Nat.digitChar (n % 10)] := by
  show decDigitsAux (n + 1) n = _
  rw [decDigitsAux]
  split_ifs with h
  · rfl
  · have hd : n / 10 < n := Nat.div_lt_self (by omega) (by omega)
    rw [decDigitsAux_irrel (n / 10) n (n / 10 + 1) (by omega) (by omega)]
    rfl

theorem digitChar_isDigit (n : Nat) (h : n < 10) : (Nat.digitChar n).isDigit := by
  interval_cases n <;> decide

theorem decDigits_isDigit (n : Nat) : ∀ c ∈ decDigits n, c.isDigit := by
  induction n using Nat.strong_induction_on with
  | _ n ih =>
    intro c hc
    by_cases h : n < 10
    · rw [decDigits_eq, if_pos h] at hc
      simp only [List.mem_singleton] at hc
      exact hc ▸ digitChar_isDigit n h
    · rw [decDigits_eq, if_neg h] at hc
      rcases List.mem_append.mp hc with h1 | h1
      · exact ih (n / 10) (Nat.div_lt_self (by omega) (by omega)) c h1
      · simp only [List.mem_singleton] at h1
        exact h1 ▸ digitChar_isDigit _ (Nat.mod_lt _ (by omega))

/-- Numeric value of a digit character. -/
def charVal (c : Char) : Nat := c.toNat - 48

/-- Decimal value of a digit string. -/
def digitsVal (l : List Char) : Nat := l.foldl (fun a c => 10 * a + charVal c) 0

theorem charVal_digitChar (n : Nat) (h : n < 10) : charVal (Nat.digitChar n) = n := by
  interval_cases n <;> decide

theorem digitsVal_append_singleton (l : List Char) (c : Char) :
    digitsVal (l ++ [c]) = 10 * digitsVal l + charVal c := by
  unfold digitsVal
  rw [List.foldl_append]
  rfl

theorem digitsVal_decDigits (n : Nat) : digitsVal (decDigits n) = n := by
  induction n using Nat.strong_induction_on with
  | _ n ih =>
    by_cases h : n < 10
    · rw [decDigits_eq, if_pos h]
      show 10 * 0 + charVal (Nat.digitChar n) = n
      rw [charVal_digitChar n h]
      omega
    · rw [decDigits_eq, if_neg h, digitsVal_append_singleton,
        ih (n / 10) (Nat.div_lt_self (by omega) (by omega)),
        charVal_digitChar _ (Nat.mod_lt _ (by omega))]
      omega

theorem decDigits_injective : Function.Injective decDigits := by
  intro a b h
  have := digitsVal_decDigits a
  rw [h, digitsVal_decDigits] at this
  omega

/-- Python `f"{n:02d}"`: decimal rendering padded with `'0'` to a minimum
width of 2; wider numbers are rendered unpadded and untruncated. -/
def pad2 (n : Nat) : List Char :=
  if n < 10 then '0' :: decDigits n else decDigits n

theorem decDigits_ne_nil (n : Nat) : decDigits n ≠ [] := by
  by_cases h : n < 10
  · rw [decDigits_eq, if_pos h]; simp
  · rw [decDigits_eq, if_neg h]; simp

theorem decDigits_head_ne_zero (n : Nat) (hn : n ≠ 0) :
    ∀ t, decDigits n ≠ '0' :: t := by
  induction n using Nat.strong_induction_on with
  | _ n ih =>
    intro t ht
    by_cases h : n < 10
    · rw [decDigits_eq, if_pos h] at ht
      have h0 : Nat.digitChar n = '0' := by
        have := List.head_eq_of_cons_eq ht
        exact this
      interval_cases n <;> simp_all <;> exact absurd h0 (by decide)
    · rw [decDigits_eq, if_neg h] at ht
      rcases hq : decDigits (n / 10) with _ | ⟨c, rest⟩
      · exact decDigits_ne_nil _ hq
      · rw [hq] at ht
        have hc : c = '0' := List.head_eq_of_cons_eq ht
        exact ih (n / 10) (Nat.div_lt_self (by omega) (by omega))
          (by omega) rest (by rw [hq, hc])

theorem pad2_isDigit (n : Nat) : ∀ c ∈ pad2 n, c.isDigit := by
  intro c hc
  unfold pad2 at hc
  split_ifs at hc
  · rcases List.mem_cons.mp hc with h | h
    · subst h; decide
    · exact decDigits_isDigit n c h
  · exact decDigits_isDigit n c hc

theorem pad2_injective : Function.Injective pad2 := by
  intro a b h
  unfold pad2 at h
  split_ifs at h with ha hb hb
  · exact decDigits_injective (List.tail_eq_of_cons_eq h)
  · exact absurd h.symm (decDigits_head_ne_zero b (by omega) _)
  · exact absurd h (decDigits_head_ne_zero a (by omega) _)
  · exact decDigits_injective h

theorem pad2_length (n : Nat) : 2 ≤ (pad2 n).length := by
  unfold pad2
  split_ifs with h
  · have := decDigits_ne_nil n
    cases hq : decDigits n with
    | nil => exact absurd hq this
    | cons c t => simp [hq]
  · rw [decDigits_eq, if_neg h]
    have := decDigits_ne_nil (n / 10)
    cases hq : decDigits (n / 10) with
    | nil => exact absurd hq this
    | cons c t => simp [hq]

/-- Index of the last `'.'` in a name, if any (Python `str.rfind('.')`,
restricted to the found case). -/
def lastDotIdx : List Char → Option Nat
  | [] => none
  | c :: rest =>
    match lastDotIdx rest with
    | some i => some (i + 1)
    | none => if c = '.' then some 0 else none

/-- Python `pathlib.PurePath.suffix` of a file name: the substring from
the last dot, provided that dot is neither the first nor the last
character; otherwise the empty string. -/
def pySuffix (nm : FName) : FName :=
  match lastDotIdx nm with
  | some i => if 0 < i ∧ i < nm.length - 1 then nm.drop i else []
  | none => []

theorem pySuffix_eq_of_some (nm : FName) (i : Nat) (h : lastDotIdx nm = some i) :
    pySuffix nm = if 0 < i ∧ i < nm.length - 1 then nm.drop i else [] := by
  unfold pySuffix
  rw [h]

theorem pySuffix_eq_of_none (nm : FName) (h : lastDotIdx nm = none) :
    pySuffix nm = [] := by
  unfold pySuffix
  rw [h]

theorem lastDotIdx_of_not_mem (l : List Char) (h : '.' ∉ l) : lastDotIdx l = none := by
  induction l with
  | nil => rfl
  | cons c rest ih =>
    have hc : c ≠ '.' := fun hh => h (hh ▸ List.mem_cons_self c rest)
    have hr : '.' ∉ rest := fun hh => h (List.mem_cons_of_mem c hh)
    unfold lastDotIdx
    rw [ih hr, if_neg hc]

theorem lastDotIdx_append_dot (a t : List Char) (ht : '.' ∉ t) :
    lastDotIdx (a ++ '.' :: t) = some a.length := by
  induction a with
  | nil =>
    unfold lastDotIdx
    rw [List.nil_append]
    show (match lastDotIdx t with
      | some i => some (i + 1)
      | none => if '.' = '.' then some 0 else none) = some 0
    rw [lastDotIdx_of_not_mem t ht, if_pos rfl]
  | cons c a ih =>
    show (match lastDotIdx (a ++ '.' :: t) with
      | some i => some (i + 1)
      | none => if c = '.' then some 0 else none) = some (a.length + 1)
    rw [ih]

theorem pySuffix_append_dot (a t : List Char) (ha : a ≠ []) (hts : t ≠ [])
    (ht : '.' ∉ t) : pySuffix (a ++ '.' :: t) = '.' :: t := by
  rw [pySuffix_eq_of_some _ _ (lastDotIdx_append_dot a t ht)]
  have h1 : 0 < a.length := List.length_pos.mpr ha
  have h2 : a.length < (a ++ '.' :: t).length - 1 := by
    rw [List.length_append, List.length_cons]
    have : 0 < t.length := List.length_pos.mpr hts
    omega
  rw [if_pos ⟨h1, h2⟩]
  exact List.drop_left a ('.' :: t)

theorem lastDotIdx_none_not_mem (l : List Char) (h : lastDotIdx l = none) : '.' ∉ l := by
  induction l with
  | nil => simp
  | cons c rest ih =>
    revert h
    show (match lastDotIdx rest with
      | some i => some (i + 1)
      | none => if c = '.' then some 0 else none) = none → _
    cases hr : lastDotIdx rest with
    | some i => intro h; cases h
    | none =>
      split_ifs with hc
      · intro h; cases h
      · intro _ hmem
        rcases List.mem_cons.mp hmem with h1 | h1
        · exact hc h1.symm
        · exact ih hr h1

theorem lastDotIdx_drop (nm : FName) (i : Nat) (h : lastDotIdx nm = some i) :
    ∃ t, nm.drop i = '.' :: t ∧ '.' ∉ t := by
  induction nm generalizing i with
  | nil => cases h
  | cons c rest ih =>
    revert h
    show (match lastDotIdx rest with
      | some j => some (j + 1)
      | none => if c = '.' then some 0 else none) = some i → _
    cases hr : lastDotIdx rest with
    | some j =>
      intro h
      have hij : i = j + 1 := (Option.some.inj h).symm
      subst hij
      obtain ⟨t, ht1, ht2⟩ := ih j hr
      exact ⟨t, by rw [List.drop_succ_cons]; exact ht1, ht2⟩
    | none =>
      split_ifs with hc
      · intro h
        have hi : i = 0 := (Option.some.inj h).symm
        subst hi hc
        exact ⟨rest, rfl, lastDotIdx_none_not_mem rest hr⟩
      · intro h; cases h

/-- The suffix returned by `pySuffix` is empty or starts with a dot,
with no further dot after it. -/
theorem pySuffix_structure (nm : FName) :
    pySuffix nm = [] ∨ ∃ t, pySuffix nm = '.' :: t ∧ '.' ∉ t := by
  cases h : lastDotIdx nm with
  | none => exact Or.inl (pySuffix_eq_of_none nm h)
  | some i =>
    rw [pySuffix_eq_of_some nm i h]
    split_ifs with hcond
    · obtain ⟨t, ht1, ht2⟩ := lastDotIdx_drop nm i h
      exact Or.inr ⟨t, ht1, ht2⟩
    · exact Or.inl rfl

/-- A directory entry, carrying the observable results of the probes the
watcher performs.  `ctime` is the creation timestamp used as sort key.
`present` is the result of `Path.exists()`, `statOk` whether `stat()`
succeeds, `size` the reported `st_size`, `readOk` whether opening the
file and reading one byte succeeds, `isFile` the result of `is_file()`. -/
structure Entry where
  name : FName
  ctime : Nat
  isFile : Bool
  present : Bool
  statOk : Bool
  size : Nat
  readOk : Bool
deriving DecidableEq

/-- The accessibility filter of `get_real_image_files`
(corrected implementation, lines 38-72): regular file, image extension on
the lower-cased name, existence re-check, stat succeeds, positive size,
one-byte read succeeds. -/
def lowerExtOk (nm : FName) : Bool :=
  decide (List.IsSuffix (".png".data) (lowerL nm)) ||
  decide (List.IsSuffix (".jpg".data) (lowerL nm)) ||
  decide (List.IsSuffix (".jpeg".data) (lowerL nm))

def acceptEntry (e : Entry) : Bool :=
  e.isFile && lowerExtOk e.name && e.present && e.statOk &&
  decide (0 < e.size) && e.readOk

/-- `get_real_image_files` (corrected implementation): the accessible
image files of the directory, in enumeration order. -/
def get_real_image_files (d : List Entry) : List Entry :=
  d.filter acceptEntry

/-- The glob-based listing of the original implementation
(`reorganize_all_files`, lines 236-239): six case-sensitive patterns in
order `*.png, *.PNG, *.jpg, *.JPG, *.jpeg, *.JPEG`, with no
accessibility checks at all. -/
def globAccept (pat : String) (e : Entry) : Bool :=
  decide (List.IsSuffix pat.data e.name)

def glob_image_files (d : List Entry) : List Entry :=
  d.filter (globAccept ".png") ++ d.filter (globAccept ".PNG") ++
  d.filter (globAccept ".jpg") ++ d.filter (globAccept ".JPG") ++
  d.filter (globAccept ".jpeg") ++ d.filter (globAccept ".JPEG")

/-- The sort key relation of `existing_files.sort(key=os.path.getctime)`:
creation time only. -/
def ctle (a b : Entry) : Prop := a.ctime ≤ b.ctime

instance : DecidableRel ctle := fun a b => Nat.decLe a.ctime b.ctime

instance : IsTotal Entry ctle := ⟨fun a b => Nat.le_total a.ctime b.ctime⟩

instance : IsTrans Entry ctle := ⟨fun _ _ _ h1 h2 => Nat.le_trans h1 h2⟩

/-- Python's `list.sort(key=...)` is a stable sort; any stable sort by
the same key computes the same list, so it is embedded as a stable
insertion sort by `ctime`. -/
def sortByCtime (files : List Entry) : List Entry :=
  List.insertionSort ctle files

theorem sortByCtime_sorted (files : List Entry) :
    List.Sorted ctle (sortByCtime files) :=
  List.sorted_insertionSort ctle files

theorem sortByCtime_perm (files : List Entry) :
    (sortByCtime files).Perm files :=
  List.perm_insertionSort ctle files

/-- Stability of the embedded sort, characterized without positions: for
every timestamp value, the entries carrying it appear in the sorted list
in their original relative order. -/
theorem orderedInsert_filter_ctime (a : Entry) (l : List Entry) (t : Nat) :
    (List.orderedInsert ctle a l).filter (fun e => decide (e.ctime = t)) =
      if a.ctime = t then a :: l.filter (fun e => decide (e.ctime = t))
      else l.filter (fun e => decide (e.ctime = t)) := by
  induction l with
  | nil =>
    simp only [List.orderedInsert]
    by_cases hat : a.ctime = t <;> simp [List.filter_cons, hat]
  | cons b l ih =>
    simp only [List.orderedInsert]
    by_cases hr : ctle a b
    · rw [if_pos hr]
      by_cases hat : a.ctime = t <;> simp [List.filter_cons, hat]
    · rw [if_neg hr]
      have hlt : b.ctime < a.ctime := by
        unfold ctle at hr
        omega
      by_cases hat : a.ctime = t
      · have hbt : ¬ b.ctime = t := by omega
        simp [List.filter_cons, hbt, ih, hat]
      · by_cases hbt : b.ctime = t <;> simp [List.filter_cons, hbt, ih, hat]

theorem sortByCtime_stable (files : List Entry) (t : Nat) :
    (sortByCtime files).filter (fun e => decide (e.ctime = t)) =
      files.filter (fun e => decide (e.ctime = t)) := by
  induction files with
  | nil => rfl
  | cons a l ih =>
    show (List.orderedInsert ctle a (List.insertionSort ctle l)).filter _ = _
    rw [orderedInsert_filter_ctime]
    unfold sortByCtime at ih
    by_cases hat : a.ctime = t <;> simp [List.filter_cons, hat, ih]

/-- One entry of the rename plan: current path, temporary name, final
name — the `(file_path, temp, expected)` triple of the code. -/
structure PlanEntry where
  cur : FName
  tmp : FName
  fin : FName
deriving DecidableEq

/-- The target final name `f"{prefix}_{i+1:02d}{ext}"`, with
`ext = file_path.suffix.lower()` (0-based index `i`). -/
def expectedName (pre : FName) (i : Nat) (nm : FName) : FName :=
  pre ++ '_' :: (pad2 (i + 1) ++ lowerL (pySuffix nm))

/-- The temporary name `f"TEMP_{i+1:02d}_{prefix}{ext}"`. -/
def tempName (pre : FName) (i : Nat) (nm : FName) : FName :=
  "TEMP_".data ++ (pad2 (i + 1) ++ '_' :: (pre ++ lowerL (pySuffix nm)))

/-- Plan computation of the corrected implementation (`renames` list,
lines 263-272): enumerate the ordered files; a file whose current name
differs from the expected name contributes the triple. -/
def renamesAux (pre : FName) : Nat → List Entry → List PlanEntry
  | _, [] => []
  | i, f :: rest =>
    if f.name = expectedName pre i f.name then renamesAux pre (i + 1) rest
    else ⟨f.name, tempName pre i f.name, expectedName pre i f.name⟩ ::
      renamesAux pre (i + 1) rest

def renames (pre : FName) (files : List Entry) : List PlanEntry :=
  renamesAux pre 0 files

/-- Plan computation of the original implementation (`temp_names` list,
lines 252-261). -/
def temp_namesAux (pre : FName) : Nat → List Entry → List PlanEntry
  | _, [] => []
  | i, f :: rest =>
    if f.name = expectedName pre i f.name then temp_namesAux pre (i + 1) rest
    else ⟨f.name, tempName pre i f.name, expectedName pre i f.name⟩ ::
      temp_namesAux pre (i + 1) rest

def temp_names (pre : FName) (files : List Entry) : List PlanEntry :=
  temp_namesAux pre 0 files

theorem mem_renamesAux (pre : FName) (files : List Entry) (i : Nat)
    (p : PlanEntry) (hp : p ∈ renamesAux pre i files) :
    ∃ k, ∃ h : k < files.length,
      files[k].name ≠ expectedName pre (i + k) files[k].name ∧
      p = ⟨files[k].name, tempName pre (i + k) files[k].name,
           expectedName pre (i + k) files[k].name⟩ := by
  induction files generalizing i with
  | nil => cases hp
  | cons f rest ih =>
    rw [renamesAux] at hp
    split_ifs at hp with hf
    · obtain ⟨k, hk, h1, h2⟩ := ih (i + 1) hp
      refine ⟨k + 1, by simpa using Nat.succ_lt_succ hk, ?_, ?_⟩
      · simpa [Nat.add_assoc, Nat.add_comm 1 k] using h1
      · simpa [Nat.add_assoc, Nat.add_comm 1 k] using h2
    · rcases List.mem_cons.mp hp with h | h
      · exact ⟨0, by simp, by simpa using hf, by simpa using h⟩
      · obtain ⟨k, hk, h1, h2⟩ := ih (i + 1) h
        refine ⟨k + 1, by simpa using Nat.succ_lt_succ hk, ?_, ?_⟩
        · simpa [Nat.add_assoc, Nat.add_comm 1 k] using h1
        · simpa [Nat.add_assoc, Nat.add_comm 1 k] using h2

theorem renamesAux_cur_sublist (pre : FName) (files : List Entry) (i : Nat) :
    ((renamesAux pre i files).map PlanEntry.cur).Sublist
      (files.map Entry.name) := by
  induction files generalizing i with
  | nil => simp [renamesAux]
  | cons f rest ih =>
    rw [renamesAux]
    split_ifs with hf
    · exact List.Sublist.cons _ (ih (i + 1))
    · simp only [List.map_cons]
      exact List.Sublist.cons₂ _ (ih (i + 1))

theorem renamesAux_of_all_eq (pre : FName) (files : List Entry) (i : Nat)
    (h : ∀ k, ∀ hk : k < files.length,
      files[k].name = expectedName pre (i + k) files[k].name) :
    renamesAux pre i files = [] := by
  induction files generalizing i with
  | nil => rfl
  | cons f rest ih =>
    rw [renamesAux, if_pos (by simpa using h 0 (by simp))]
    exact ih (i + 1) fun k hk => by
      simpa [Nat.add_assoc, Nat.add_comm 1 k] using h (k + 1) (by simpa using Nat.succ_lt_succ hk)

theorem asciiLower_ne_T (c : Char) : asciiLower c ≠ 'T' := by
  rw [asciiLower_eq_find]
  cases hf : asciiCaseTable.find? (fun p => decide (p.1 = c)) with
  | some p =>
    have hmem := List.mem_of_find?_eq_some hf
    have hall : ∀ q ∈ asciiCaseTable, q.2 ≠ 'T' := by decide
    exact hall p hmem
  | none =>
    intro h
    subst h
    exact absurd hf (by decide)

theorem count_T_lowerL (x : FName) : (lowerL x).count 'T' = 0 := by
  rw [List.count_eq_zero]
  intro hmem
  obtain ⟨c, _, hc⟩ := List.mem_map.mp hmem
  exact asciiLower_ne_T c hc

theorem count_T_pad2 (n : Nat) : (pad2 n).count 'T' = 0 := by
  rw [List.count_eq_zero]
  intro hmem
  have := pad2_isDigit n 'T' hmem
  exact absurd this (by decide)

/-- Splitting `x ++ e1 = y ++ e2` where `x, y` are digit strings and
`e1, e2` are empty or dot-headed forces `x = y`. -/
theorem digits_ext_split (x : List Char) (hx : ∀ c ∈ x, c.isDigit) :
    ∀ y : List Char, (∀ c ∈ y, c.isDigit) →
    ∀ e1 e2 : List Char, (e1 = [] ∨ ∃ t, e1 = '.' :: t) →
    (e2 = [] ∨ ∃ t, e2 = '.' :: t) → x ++ e1 = y ++ e2 → x = y := by
  induction x with
  | nil =>
    intro y hy e1 e2 he1 he2 h
    cases y with
    | nil => rfl
    | cons d y' =>
      exfalso
      rcases he1 with h1 | ⟨t, h1⟩
      · subst h1
        exact List.cons_ne_nil d (y' ++ e2) h.symm
      · subst h1
        have hd : d = '.' := List.head_eq_of_cons_eq h.symm
        have := hy d (List.mem_cons_self d y')
        rw [hd] at this
        exact absurd this (by decide)
  | cons c x' ih =>
    intro y hy e1 e2 he1 he2 h
    cases y with
    | nil =>
      exfalso
      rcases he2 with h2 | ⟨t, h2⟩
      · subst h2
        exact List.cons_ne_nil c (x' ++ e1) h
      · subst h2
        have hc : c = '.' := List.head_eq_of_cons_eq h
        have := hx c (List.mem_cons_self c x')
        rw [hc] at this
        exact absurd this (by decide)
    | cons d y' =>
      have hcd : c = d := List.head_eq_of_cons_eq h
      have htl : x' ++ e1 = y' ++ e2 := List.tail_eq_of_cons_eq h
      rw [hcd, ih (fun a ha => hx a (List.mem_cons_of_mem c ha)) y'
        (fun a ha => hy a (List.mem_cons_of_mem d ha)) e1 e2 he1 he2 htl]

/-- Splitting `x ++ '_' :: u = y ++ '_' :: v` with digit strings `x, y`
forces `x = y` and `u = v`. -/
theorem digits_underscore_split (x : List Char) (hx : ∀ c ∈ x, c.isDigit) :
    ∀ y : List Char, (∀ c ∈ y, c.isDigit) →
    ∀ u v : List Char, x ++ '_' :: u = y ++ '_' :: v → x = y ∧ u = v := by
  induction x with
  | nil =>
    intro y hy u v h
    cases y with
    | nil => exact ⟨rfl, List.tail_eq_of_cons_eq h⟩
    | cons d y' =>
      exfalso
      have hd : d = '_' := (List.head_eq_of_cons_eq h).symm
      have := hy d (List.mem_cons_self d y')
      rw [hd] at this
      exact absurd this (by decide)
  | cons c x' ih =>
    intro y hy u v h
    cases y with
    | nil =>
      exfalso
      have hc : c = '_' := List.head_eq_of_cons_eq h
      have := hx c (List.mem_cons_self c x')
      rw [hc] at this
      exact absurd this (by decide)
    | cons d y' =>
      have hcd : c = d := List.head_eq_of_cons_eq h
      have htl : x' ++ '_' :: u = y' ++ '_' :: v := List.tail_eq_of_cons_eq h
      obtain ⟨h1, h2⟩ := ih (fun a ha => hx a (List.mem_cons_of_mem c ha)) y'
        (fun a ha => hy a (List.mem_cons_of_mem d ha)) u v htl
      exact ⟨by rw [hcd, h1], h2⟩

/-- The lower-cased python suffix is empty or dot-headed. -/
theorem lowerL_pySuffix_structure (nm : FName) :
    lowerL (pySuffix nm) = [] ∨ ∃ t, lowerL (pySuffix nm) = '.' :: t := by
  rcases pySuffix_structure nm with h | ⟨t, h, _⟩
  · exact Or.inl (by rw [h]; rfl)
  · right
    rw [h]
    exact ⟨lowerL t, by simp [lowerL, (asciiLower_eq_dot_iff '.').mpr rfl]⟩

/-- Final names for distinct indices (same prefix) are distinct. -/
theorem expectedName_index_injective (pre : FName) (i j : Nat)
    (nm1 nm2 : FName) (h : expectedName pre i nm1 = expectedName pre j nm2) :
    i = j := by
  unfold expectedName at h
  have h1 : pad2 (i + 1) ++ lowerL (pySuffix nm1) =
      pad2 (j + 1) ++ lowerL (pySuffix nm2) :=
    List.tail_eq_of_cons_eq (List.append_cancel_left h)
  have h2 := digits_ext_split (pad2 (i + 1)) (pad2_isDigit (i + 1))
    (pad2 (j + 1)) (pad2_isDigit (j + 1)) _ _
    (lowerL_pySuffix_structure nm1) (lowerL_pySuffix_structure nm2) h1
  have := pad2_injective h2
  omega

/-- Temporary names for distinct indices (same prefix) are distinct. -/
theorem tempName_index_injective (pre : FName) (i j : Nat)
    (nm1 nm2 : FName) (h : tempName pre i nm1 = tempName pre j nm2) :
    i = j := by
  unfold tempName at h
  have h1 : pad2 (i + 1) ++ '_' :: (pre ++ lowerL (pySuffix nm1)) =
      pad2 (j + 1) ++ '_' :: (pre ++ lowerL (pySuffix nm2)) :=
    List.append_cancel_left h
  obtain ⟨h2, _⟩ := digits_underscore_split (pad2 (i + 1)) (pad2_isDigit (i + 1))
    (pad2 (j + 1)) (pad2_isDigit (j + 1)) _ _ h1
  have := pad2_injective h2
  omega

/-- A temporary name never equals a final name (for any indices, any
file names, the same prefix): they contain a different number of `'T'`
characters. -/
theorem tempName_ne_expectedName (pre : FName) (i j : Nat)
    (nm1 nm2 : FName) : tempName pre i nm1 ≠ expectedName pre j nm2 := by
  intro h
  have hcount : (tempName pre i nm1).count 'T' =
      (expectedName pre j nm2).count 'T' := by rw [h]
  unfold tempName expectedName at hcount
  have cu1 : ('_' :: (pre ++ lowerL (pySuffix nm1))).count 'T' =
      pre.count 'T' + (lowerL (pySuffix nm1)).count 'T' := by
    rw [List.count_cons, List.count_append]
    simp
  have cu2 : ('_' :: (pad2 (j + 1) ++ lowerL (pySuffix nm2))).count 'T' =
      (pad2 (j + 1)).count 'T' + (lowerL (pySuffix nm2)).count 'T' := by
    rw [List.count_cons, List.count_append]
    simp
  rw [List.count_append, List.count_append, cu1, List.count_append, cu2,
    count_T_pad2, count_T_pad2, count_T_lowerL, count_T_lowerL] at hcount
  have e1 : (("TEMP_".data : List Char).count 'T') = 1 := by decide
  rw [e1] at hcount
  omega

/-- Success condition of `Path.rename(src → tgt)` under the Windows
semantics the watcher targets: the source exists and the target does not
(renaming a path to itself succeeds trivially). -/
def renameOk (src tgt : FName) (d : List Entry) : Bool :=
  d.any (fun e => decide (e.name = src)) &&
  (decide (src = tgt) || !(d.any (fun e => decide (e.name = tgt))))

/-- Effect of a successful rename on the directory: the entry holding
the source name now holds the target name; positions are unchanged. -/
def renameApply (src tgt : FName) (d : List Entry) : List Entry :=
  d.map (fun e => if e.name = src then { e with name := tgt } else e)

structure Phase1Result where
  dir : List Entry
  succ : List PlanEntry
  ok : Bool
deriving DecidableEq

/-- Phase 1 of the corrected implementation (lines 280-292): rename each
plan entry to its temporary name; a failing entry is logged, excluded
from `successful_phase1`, and the loop continues with the next entry.
`ok` records whether every rename succeeded. -/
def runPhase1 : List PlanEntry → List Entry → Phase1Result
  | [], d => ⟨d, [], true⟩
  | p :: rest, d =>
    if renameOk p.cur p.tmp d then
      ⟨(runPhase1 rest (renameApply p.cur p.tmp d)).dir,
       p :: (runPhase1 rest (renameApply p.cur p.tmp d)).succ,
       (runPhase1 rest (renameApply p.cur p.tmp d)).ok⟩
    else
      ⟨(runPhase1 rest d).dir, (runPhase1 rest d).succ, false⟩

structure Phase2Result where
  dir : List Entry
  ok : Bool
deriving DecidableEq

/-- Phase 2 of the corrected implementation (lines 294-312): for each
successfully phase-1'd entry whose temporary file still exists, rename
it to its final name; failures are logged and the loop continues. -/
def runPhase2 : List PlanEntry → List Entry → Phase2Result
  | [], d => ⟨d, true⟩
  | p :: rest, d =>
    if d.any (fun e => decide (e.name = p.tmp)) then
      if renameOk p.tmp p.fin d then
        runPhase2 rest (renameApply p.tmp p.fin d)
      else
        ⟨(runPhase2 rest d).dir, false⟩
    else runPhase2 rest d

/-- `reorganize_all_files` of the corrected implementation: resolve the
accessible image files, sort them by creation time, compute the plan,
execute it in two phases.  Returns the final directory state and whether
every attempted rename succeeded. -/
def reorganize_all_files (pre : FName) (d : List Entry) : List Entry × Bool :=
  let plan := renames pre (sortByCtime (get_real_image_files d))
  let r1 := runPhase1 plan d
  let r2 := runPhase2 r1.succ r1.dir
  (r2.dir, r1.ok && r2.ok)

/-- Phase 1 of the original implementation (lines 269-274): no per-entry
exception handling, so the first failing rename raises, propagates to
the outer handler of `reorganize_all_files` (line 296) and aborts the
pass: the remaining renames and all of phase 2 are skipped. -/
def runPhase1Orig : List PlanEntry → List Entry → List Entry × Bool
  | [], d => (d, true)
  | p :: rest, d =>
    if renameOk p.cur p.tmp d then runPhase1Orig rest (renameApply p.cur p.tmp d)
    else (d, false)

/-- Phase 2 of the original implementation (lines 277-292): likewise
aborts on the first failing rename. -/
def runPhase2Orig : List PlanEntry → List Entry → List Entry × Bool
  | [], d => (d, true)
  | p :: rest, d =>
    if renameOk p.tmp p.fin d then runPhase2Orig rest (renameApply p.tmp p.fin d)
    else (d, false)

/-- `reorganize_all_files` of the original implementation: glob-based
listing with no accessibility checks, sort, plan, and the two aborting
phases. -/
def reorganize_all_files_orig (pre : FName) (d : List Entry) : List Entry × Bool :=
  let plan := temp_names pre (sortByCtime (glob_image_files d))
  let r1 := runPhase1Orig plan d
  if r1.2 then runPhase2Orig plan r1.1
  else (r1.1, false)

/-- First plan entry whose current name is `nm`. -/
def findCur (nm : FName) : List PlanEntry → Option PlanEntry
  | [] => none
  | p :: rest => if p.cur = nm then some p else findCur nm rest

/-- First plan entry whose temporary name is `nm`. -/
def findTmp (nm : FName) : List PlanEntry → Option PlanEntry
  | [] => none
  | p :: rest => if p.tmp = nm then some p else findTmp nm rest

/-- Pointwise effect of a fully successful phase 1 on one entry. -/
def phase1Spec (P : List PlanEntry) (e : Entry) : Entry :=
  match findCur e.name P with
  | some p => { e with name := p.tmp }
  | none => e

/-- Pointwise effect of a fully successful phase 2 on one entry. -/
def phase2Spec (P : List PlanEntry) (e : Entry) : Entry :=
  match findTmp e.name P with
  | some p => { e with name := p.fin }
  | none => e

/-- Position of the entry holding name `nm`, if any. -/
def idxOfName (nm : FName) : List Entry → Option Nat
  | [] => none
  | f :: rest => if f.name = nm then some 0 else (idxOfName nm rest).map (· + 1)

/-- Pointwise effect of a fully successful reconciliation pass: the file
at chronological position `k` ends up named `expectedName pre k`. -/
def reassign (pre : FName) (s : List Entry) (e : Entry) : Entry :=
  match idxOfName e.name s with
  | some k => { e with name := expectedName pre k e.name }
  | none => e

/-- The list `[expectedName pre 0 …, expectedName pre 1 …, …]` over the
ordered files. -/
def expectedNamesAux (pre : FName) : Nat → List Entry → List FName
  | _, [] => []
  | i, f :: rest => expectedName pre i f.name :: expectedNamesAux pre (i + 1) rest

def expectedNames (pre : FName) (files : List Entry) : List FName :=
  expectedNamesAux pre 0 files

theorem findCur_of_not_mem (nm : FName) (P : List PlanEntry)
    (h : nm ∉ P.map PlanEntry.cur) : findCur nm P = none := by
  induction P with
  | nil => rfl
  | cons p rest ih =>
    rw [findCur, if_neg, ih]
    · intro hm
      exact h (List.mem_cons_of_mem _ hm)
    · intro he
      exact h (he ▸ List.mem_cons_self _ _)

theorem findCur_of_mem_nodup (P : List PlanEntry) (p : PlanEntry)
    (hmem : p ∈ P) (hnd : (P.map PlanEntry.cur).Nodup) :
    findCur p.cur P = some p := by
  induction P with
  | nil => cases hmem
  | cons q rest ih =>
    rcases List.mem_cons.mp hmem with h | h
    · subst h
      rw [findCur, if_pos rfl]
    · rw [findCur]
      have hne : q.cur ≠ p.cur := by
        intro he
        have : q.cur ∉ rest.map PlanEntry.cur := (List.nodup_cons.mp hnd).1
        exact this (he ▸ List.mem_map_of_mem PlanEntry.cur h)
      rw [if_neg hne]
      exact ih h (List.nodup_cons.mp hnd).2

theorem findTmp_of_not_mem (nm : FName) (P : List PlanEntry)
    (h : nm ∉ P.map PlanEntry.tmp) : findTmp nm P = none := by
  induction P with
  | nil => rfl
  | cons p rest ih =>
    rw [findTmp, if_neg, ih]
    · intro hm
      exact h (List.mem_cons_of_mem _ hm)
    · intro he
      exact h (he ▸ List.mem_cons_self _ _)

theorem findTmp_of_mem_nodup (P : List PlanEntry) (p : PlanEntry)
    (hmem : p ∈ P) (hnd : (P.map PlanEntry.tmp).Nodup) :
    findTmp p.tmp P = some p := by
  induction P with
  | nil => cases hmem
  | cons q rest ih =>
    rcases List.mem_cons.mp hmem with h | h
    · subst h
      rw [findTmp, if_pos rfl]
    · rw [findTmp]
      have hne : q.tmp ≠ p.tmp := by
        intro he
        have : q.tmp ∉ rest.map PlanEntry.tmp := (List.nodup_cons.mp hnd).1
        exact this (he ▸ List.mem_map_of_mem PlanEntry.tmp h)
      rw [if_neg hne]
      exact ih h (List.nodup_cons.mp hnd).2

theorem idxOfName_of_not_mem (nm : FName) (s : List Entry)
    (h : nm ∉ s.map Entry.name) : idxOfName nm s = none := by
  induction s with
  | nil => rfl
  | cons f rest ih =>
    rw [idxOfName, if_neg, ih]
    · simp
    · intro hm
      exact h (List.mem_cons_of_mem _ hm)
    · intro he
      exact h (he ▸ List.mem_cons_self _ _)

theorem idxOfName_getElem (s : List Entry) (hnd : (s.map Entry.name).Nodup)
    (k : Nat) (hk : k < s.length) : idxOfName s[k].name s = some k := by
  induction s generalizing k with
  | nil => simp at hk
  | cons f rest ih =>
    cases k with
    | zero => simp [idxOfName]
    | succ k =>
      rw [idxOfName, if_neg, List.getElem_cons_succ,
        ih (List.nodup_cons.mp hnd).2 k (by simpa using hk)]
      · rfl
      · intro he
        have h1 : f.name ∉ rest.map Entry.name := (List.nodup_cons.mp hnd).1
        have hk' : k < rest.length := by simpa using hk
        exact h1 (he ▸ List.mem_map_of_mem Entry.name (rest.getElem_mem hk'))

theorem mapCongrMem {α β : Type} (l : List α) (f g : α → β)
    (h : ∀ a ∈ l, f a = g a) : l.map f = l.map g := by
  induction l with
  | nil => rfl
  | cons a l ih =>
    rw [List.map_cons, List.map_cons, h a (List.mem_cons_self a l),
      ih fun b hb => h b (List.mem_cons_of_mem a hb)]

theorem renameOk_iff (src tgt : FName) (d : List Entry) :
    renameOk src tgt d = true ↔
      src ∈ d.map Entry.name ∧ (src = tgt ∨ tgt ∉ d.map Entry.name) := by
  unfold renameOk
  simp only [Bool.and_eq_true, Bool.or_eq_true, decide_eq_true_eq,
    Bool.not_eq_true', List.any_eq_false, List.any_eq_true,
    decide_eq_true_eq, List.mem_map]
  constructor
  · rintro ⟨⟨e, he, hn⟩, h2⟩
    refine ⟨⟨e, he, hn⟩, ?_⟩
    rcases h2 with h2 | h2
    · exact Or.inl h2
    · right
      rintro ⟨e', he', hn'⟩
      exact absurd hn' (by simpa using h2 e' he')
  · rintro ⟨⟨e, he, hn⟩, h2⟩
    refine ⟨⟨e, he, hn⟩, ?_⟩
    rcases h2 with h2 | h2
    · exact Or.inl h2
    · right
      intro e' he'
      intro hn'
      exact h2 ⟨e', he', hn'⟩

theorem renameApply_map_name (src tgt : FName) (d : List Entry) :
    (renameApply src tgt d).map Entry.name =
      (d.map Entry.name).map (fun n => if n = src then tgt else n) := by
  unfold renameApply
  rw [List.map_map, List.map_map]
  apply mapCongrMem
  intro e _
  by_cases h : e.name = src <;> simp [h]

theorem renameApply_self (src : FName) (d : List Entry) :
    renameApply src src d = d := by
  unfold renameApply
  have h : ∀ e ∈ d, (if e.name = src then { e with name := src } else e) = e := by
    intro e _
    by_cases h : e.name = src
    · rw [if_pos h, ← h]
    · rw [if_neg h]
  rw [mapCongrMem d _ id h, List.map_id]

theorem mem_map_replace_of_ne (src tgt a : FName) (l : List FName)
    (ha : a ∈ l) (hne : a ≠ src) :
    a ∈ l.map (fun n => if n = src then tgt else n) := by
  refine List.mem_map.mpr ⟨a, ha, ?_⟩
  rw [if_neg hne]

theorem nodup_map_replace (src tgt : FName) (l : List FName)
    (hnd : l.Nodup) (htgt : tgt ∉ l) :
    (l.map (fun n => if n = src then tgt else n)).Nodup := by
  induction l with
  | nil => simp
  | cons a l ih =>
    obtain ⟨h1, h2⟩ := List.nodup_cons.mp hnd
    have hta : tgt ≠ a := fun hh => htgt (hh ▸ List.mem_cons_self a l)
    have htl : tgt ∉ l := fun hh => htgt (List.mem_cons_of_mem a hh)
    rw [List.map_cons, List.nodup_cons]
    refine ⟨?_, ih h2 htl⟩
    intro hmem
    obtain ⟨b, hb, hbe⟩ := List.mem_map.mp hmem
    by_cases hbs : b = src
    · rw [if_pos hbs] at hbe
      by_cases has : a = src
      · rw [if_pos has] at hbe
        exact h1 (by rwa [hbs, ← has] at hb)
      · rw [if_neg has] at hbe
        exact hta hbe
    · rw [if_neg hbs] at hbe
      by_cases has : a = src
      · rw [if_pos has] at hbe
        exact htl (hbe ▸ hb)
      · rw [if_neg has] at hbe
        exact h1 (hbe ▸ hb)

theorem phase1Spec_eq_of_some (P : List PlanEntry) (e : Entry) (p : PlanEntry)
    (h : findCur e.name P = some p) : phase1Spec P e = { e with name := p.tmp } := by
  unfold phase1Spec
  rw [h]

theorem phase1Spec_eq_of_none (P : List PlanEntry) (e : Entry)
    (h : findCur e.name P = none) : phase1Spec P e = e := by
  unfold phase1Spec
  rw [h]

theorem phase2Spec_eq_of_some (P : List PlanEntry) (e : Entry) (p : PlanEntry)
    (h : findTmp e.name P = some p) : phase2Spec P e = { e with name := p.fin } := by
  unfold phase2Spec
  rw [h]

theorem phase2Spec_eq_of_none (P : List PlanEntry) (e : Entry)
    (h : findTmp e.name P = none) : phase2Spec P e = e := by
  unfold phase2Spec
  rw [h]

theorem reassign_eq_of_some (pre : FName) (s : List Entry) (e : Entry) (k : Nat)
    (h : idxOfName e.name s = some k) :
    reassign pre s e = { e with name := expectedName pre k e.name } := by
  unfold reassign
  rw [h]

theorem reassign_eq_of_none (pre : FName) (s : List Entry) (e : Entry)
    (h : idxOfName e.name s = none) : reassign pre s e = e := by
  unfold reassign
  rw [h]

theorem map_phase1Spec_nil (d : List Entry) : d.map (phase1Spec []) = d := by
  rw [mapCongrMem d (phase1Spec []) id (fun e _ => phase1Spec_eq_of_none [] e rfl),
    List.map_id]

theorem map_phase2Spec_nil (d : List Entry) : d.map (phase2Spec []) = d := by
  rw [mapCongrMem d (phase2Spec []) id (fun e _ => phase2Spec_eq_of_none [] e rfl),
    List.map_id]

theorem phase1Spec_cons_step (p : PlanEntry) (rest : List PlanEntry)
    (d : List Entry)
    (hfresh : p.cur = p.tmp ∨ p.tmp ∉ d.map Entry.name)
    (hrest : ∀ q ∈ rest, q.cur ∈ d.map Entry.name)
    (hnotin : p.cur ∉ rest.map PlanEntry.cur) :
    d.map (phase1Spec (p :: rest)) =
      (renameApply p.cur p.tmp d).map (phase1Spec rest) := by
  have hnone : findCur p.tmp rest = none := by
    apply findCur_of_not_mem
    rcases hfresh with h | h
    · rw [← h]
      exact hnotin
    · intro hmem
      obtain ⟨q, hq, hqe⟩ := List.mem_map.mp hmem
      exact h (hqe ▸ hrest q hq)
  unfold renameApply
  rw [List.map_map]
  apply mapCongrMem
  intro e _
  show phase1Spec (p :: rest) e =
    phase1Spec rest (if e.name = p.cur then { e with name := p.tmp } else e)
  by_cases hc : e.name = p.cur
  · rw [if_pos hc]
    rw [phase1Spec_eq_of_some (p :: rest) e p (by rw [findCur, if_pos hc.symm]),
      phase1Spec_eq_of_none rest _ hnone]
  · rw [if_neg hc]
    have hstep : findCur e.name (p :: rest) = findCur e.name rest := by
      rw [findCur, if_neg (fun hh => hc hh.symm)]
    unfold phase1Spec
    rw [hstep]

theorem runPhase1_ok (P : List PlanEntry) (d : List Entry)
    (hnd : (d.map Entry.name).Nodup)
    (hcur : ∀ p ∈ P, p.cur ∈ d.map Entry.name)
    (hcnd : (P.map PlanEntry.cur).Nodup)
    (hok : (runPhase1 P d).ok = true) :
    (runPhase1 P d).dir = d.map (phase1Spec P) ∧
    (runPhase1 P d).succ = P ∧
    ((d.map (phase1Spec P)).map Entry.name).Nodup ∧
    (∀ p ∈ P, p.tmp ∈ (d.map (phase1Spec P)).map Entry.name) ∧
    (∀ p ∈ P, ∀ nm ∈ d.map Entry.name, nm = p.tmp → nm ∈ P.map PlanEntry.cur) := by
  induction P generalizing d with
  | nil =>
    rw [map_phase1Spec_nil]
    exact ⟨rfl, rfl, hnd, by simp, by simp⟩
  | cons p rest ih =>
    by_cases hro : renameOk p.cur p.tmp d
    · have hstep : runPhase1 (p :: rest) d =
          ⟨(runPhase1 rest (renameApply p.cur p.tmp d)).dir,
           p :: (runPhase1 rest (renameApply p.cur p.tmp d)).succ,
           (runPhase1 rest (renameApply p.cur p.tmp d)).ok⟩ := by
        rw [runPhase1, if_pos hro]
      obtain ⟨hsrc, halt⟩ := (renameOk_iff p.cur p.tmp d).mp hro
      have hnotin : p.cur ∉ rest.map PlanEntry.cur := (List.nodup_cons.mp hcnd).1
      have hnames' : (renameApply p.cur p.tmp d).map Entry.name =
          (d.map Entry.name).map (fun n => if n = p.cur then p.tmp else n) :=
        renameApply_map_name p.cur p.tmp d
      -- the directory after the head rename still has pairwise-distinct names
      have hnd' : ((renameApply p.cur p.tmp d).map Entry.name).Nodup := by
        rcases halt with heq | hfr
        · rw [← heq, renameApply_self]
          exact hnd
        · rw [hnames']
          exact nodup_map_replace p.cur p.tmp _ hnd hfr
      -- the remaining current names are still present after the head rename
      have hcur' : ∀ q ∈ rest, q.cur ∈ (renameApply p.cur p.tmp d).map Entry.name := by
        intro q hq
        have h1 : q.cur ∈ d.map Entry.name := hcur q (List.mem_cons_of_mem p hq)
        have h2 : q.cur ≠ p.cur := by
          intro he
          exact hnotin (he ▸ List.mem_map_of_mem PlanEntry.cur hq)
        rcases halt with heq | hfr
        · rw [← heq, renameApply_self]
          exact h1
        · rw [hnames']
          exact mem_map_replace_of_ne p.cur p.tmp q.cur _ h1 h2
      have hok' : (runPhase1 rest (renameApply p.cur p.tmp d)).ok = true := by
        rw [hstep] at hok
        exact hok
      obtain ⟨ih1, ih2, ih3, ih4, ih5⟩ :=
        ih (renameApply p.cur p.tmp d) hnd' hcur' (List.nodup_cons.mp hcnd).2 hok'
      have hmap : d.map (phase1Spec (p :: rest)) =
          (renameApply p.cur p.tmp d).map (phase1Spec rest) :=
        phase1Spec_cons_step p rest d halt
          (fun q hq => hcur q (List.mem_cons_of_mem p hq)) hnotin
      refine ⟨?_, ?_, ?_, ?_, ?_⟩
      · rw [hstep, hmap]
        exact ih1
      · rw [hstep, ih2]
      · rw [hmap]
        exact ih3
      · intro q hq
        rcases List.mem_cons.mp hq with h | h
        · subst h
          rw [hmap]
          -- the entry that held `q.cur` now holds `q.tmp` and is not
          -- touched by the rest of phase 1
          obtain ⟨e, he, hen⟩ := List.mem_map.mp hsrc
          have he' : ({ e with name := q.tmp } : Entry) ∈ renameApply q.cur q.tmp d := by
            unfold renameApply
            refine List.mem_map.mpr ⟨e, he, ?_⟩
            rw [if_pos hen]
          have hnone : findCur q.tmp rest = none := by
            apply findCur_of_not_mem
            rcases halt with heq | hfr
            · rw [← heq]
              exact hnotin
            · intro hmem
              obtain ⟨r, hr, hre⟩ := List.mem_map.mp hmem
              exact hfr (hre ▸ hcur r (List.mem_cons_of_mem q hr))
          refine List.mem_map.mpr ⟨phase1Spec rest { e with name := q.tmp },
            List.mem_map_of_mem _ he', ?_⟩
          rw [phase1Spec_eq_of_none rest _ hnone]
        · rw [hmap]
          exact ih4 q h
      · intro q hq nm hnm he
        rcases List.mem_cons.mp hq with h | h
        · subst h
          rcases halt with heq | hfr
          · rw [he, ← heq]
            exact List.mem_map_of_mem PlanEntry.cur (List.mem_cons_self q rest)
          · exact absurd (he ▸ hnm) hfr
        · by_cases hc : nm = p.cur
          · rw [hc]
            exact List.mem_map_of_mem PlanEntry.cur (List.mem_cons_self p rest)
          · have hnm' : nm ∈ (renameApply p.cur p.tmp d).map Entry.name := by
              rcases halt with heq | hfr
              · rw [← heq, renameApply_self]
                exact hnm
              · rw [hnames']
                exact mem_map_replace_of_ne p.cur p.tmp nm _ hnm hc
            have := ih5 q h nm hnm' he
            exact List.mem_cons_of_mem _ this
    · have hstep : runPhase1 (p :: rest) d =
          ⟨(runPhase1 rest d).dir, (runPhase1 rest d).succ, false⟩ := by
        rw [runPhase1, if_neg hro]
      rw [hstep] at hok
      exact absurd hok (by simp)

theorem phase2Spec_cons_step (p : PlanEntry) (rest : List PlanEntry)
    (d : List Entry)
    (hfr : p.fin ∉ d.map Entry.name)
    (hrest : ∀ q ∈ rest, q.tmp ∈ d.map Entry.name) :
    d.map (phase2Spec (p :: rest)) =
      (renameApply p.tmp p.fin d).map (phase2Spec rest) := by
  have hnone : findTmp p.fin rest = none := by
    apply findTmp_of_not_mem
    intro hmem
    obtain ⟨q, hq, hqe⟩ := List.mem_map.mp hmem
    exact hfr (hqe ▸ hrest q hq)
  unfold renameApply
  rw [List.map_map]
  apply mapCongrMem
  intro e _
  show phase2Spec (p :: rest) e =
    phase2Spec rest (if e.name = p.tmp then { e with name := p.fin } else e)
  by_cases hc : e.name = p.tmp
  · rw [if_pos hc,
      phase2Spec_eq_of_some (p :: rest) e p (by rw [findTmp, if_pos hc.symm]),
      phase2Spec_eq_of_none rest _ hnone]
  · rw [if_neg hc]
    have hs2 : findTmp e.name (p :: rest) = findTmp e.name rest := by
      rw [findTmp, if_neg fun hh => hc hh.symm]
    unfold phase2Spec
    rw [hs2]

theorem runPhase2_ok (P : List PlanEntry) (d : List Entry)
    (hnd : (d.map Entry.name).Nodup)
    (htmp : ∀ p ∈ P, p.tmp ∈ d.map Entry.name)
    (htnd : (P.map PlanEntry.tmp).Nodup)
    (hdisj : ∀ p ∈ P, ∀ q ∈ P, p.tmp ≠ q.fin)
    (hok : (runPhase2 P d).ok = true) :
    (runPhase2 P d).dir = d.map (phase2Spec P) := by
  induction P generalizing d with
  | nil =>
    rw [map_phase2Spec_nil]
    rfl
  | cons p rest ih =>
    have hex : d.any (fun e => decide (e.name = p.tmp)) = true := by
      obtain ⟨e, he, hen⟩ := List.mem_map.mp (htmp p (List.mem_cons_self p rest))
      simp only [List.any_eq_true, decide_eq_true_eq]
      exact ⟨e, he, hen⟩
    by_cases hro : renameOk p.tmp p.fin d
    · have hstep : runPhase2 (p :: rest) d =
          runPhase2 rest (renameApply p.tmp p.fin d) := by
        rw [runPhase2, if_pos hex, if_pos hro]
      obtain ⟨hsrc, halt⟩ := (renameOk_iff _ _ _).mp hro
      have hfr : p.fin ∉ d.map Entry.name := by
        rcases halt with heq | hfr
        · exact absurd heq
            (hdisj p (List.mem_cons_self p rest) p (List.mem_cons_self p rest))
        · exact hfr
      have hnames' : (renameApply p.tmp p.fin d).map Entry.name =
          (d.map Entry.name).map (fun n => if n = p.tmp then p.fin else n) :=
        renameApply_map_name p.tmp p.fin d
      have hnd' : ((renameApply p.tmp p.fin d).map Entry.name).Nodup := by
        rw [hnames']
        exact nodup_map_replace p.tmp p.fin _ hnd hfr
      have hnotin : p.tmp ∉ rest.map PlanEntry.tmp := (List.nodup_cons.mp htnd).1
      have htmp' : ∀ q ∈ rest, q.tmp ∈ (renameApply p.tmp p.fin d).map Entry.name := by
        intro q hq
        have h1 : q.tmp ∈ d.map Entry.name := htmp q (List.mem_cons_of_mem p hq)
        have h2 : q.tmp ≠ p.tmp := by
          intro he
          exact hnotin (he ▸ List.mem_map_of_mem PlanEntry.tmp hq)
        rw [hnames']
        exact mem_map_replace_of_ne p.tmp p.fin q.tmp _ h1 h2
      have hok' : (runPhase2 rest (renameApply p.tmp p.fin d)).ok = true := by
        rw [hstep] at hok
        exact hok
      have hdisj' : ∀ a ∈ rest, ∀ b ∈ rest, a.tmp ≠ b.fin := fun a ha b hb =>
        hdisj a (List.mem_cons_of_mem p ha) b (List.mem_cons_of_mem p hb)
      have ihr := ih (renameApply p.tmp p.fin d) hnd' htmp'
        (List.nodup_cons.mp htnd).2 hdisj' hok'
      rw [hstep, ihr,
        phase2Spec_cons_step p rest d hfr
          (fun q hq => htmp q (List.mem_cons_of_mem p hq))]
    · have hstep : runPhase2 (p :: rest) d =
          ⟨(runPhase2 rest d).dir, false⟩ := by
        rw [runPhase2, if_pos hex, if_neg hro]
      rw [hstep] at hok
      exact absurd hok (by simp)

theorem renames_mem (pre : FName) (s : List Entry) (p : PlanEntry)
    (hp : p ∈ renames pre s) :
    ∃ k, ∃ hk : k < s.length,
      s[k].name ≠ expectedName pre k s[k].name ∧
      p = ⟨s[k].name, tempName pre k s[k].name, expectedName pre k s[k].name⟩ := by
  obtain ⟨k, hk, h1, h2⟩ := mem_renamesAux pre s 0 p hp
  exact ⟨k, hk, by simpa using h1, by simpa using h2⟩

theorem renamesAux_mem_of_ne (pre : FName) (files : List Entry) (i k : Nat)
    (hk : k < files.length)
    (hne : files[k].name ≠ expectedName pre (i + k) files[k].name) :
    (⟨files[k].name, tempName pre (i + k) files[k].name,
      expectedName pre (i + k) files[k].name⟩ : PlanEntry) ∈
      renamesAux pre i files := by
  induction files generalizing i k with
  | nil => simp at hk
  | cons f rest ih =>
    cases k with
    | zero =>
      rw [renamesAux]
      simp only [List.getElem_cons_zero, Nat.add_zero] at hne ⊢
      rw [if_neg hne]
      exact List.mem_cons_self _ _
    | succ k =>
      have hk' : k < rest.length := by simpa using hk
      have hidx : i + (k + 1) = (i + 1) + k := by omega
      have hne' : rest[k].name ≠ expectedName pre ((i + 1) + k) rest[k].name := by
        rw [← hidx]
        simpa using hne
      have hmem := ih (i + 1) k hk' hne'
      rw [renamesAux]
      simp only [List.getElem_cons_succ, hidx]
      split_ifs with hf
      · exact hmem
      · exact List.mem_cons_of_mem _ hmem

theorem renamesAux_tmp_nodup (pre : FName) (files : List Entry) (i : Nat) :
    ((renamesAux pre i files).map PlanEntry.tmp).Nodup := by
  induction files generalizing i with
  | nil => simp [renamesAux]
  | cons f rest ih =>
    rw [renamesAux]
    split_ifs with hf
    · exact ih (i + 1)
    · rw [List.map_cons, List.nodup_cons]
      refine ⟨?_, ih (i + 1)⟩
      intro hmem
      obtain ⟨p, hp, hpe⟩ := List.mem_map.mp hmem
      obtain ⟨k, hk, h1, h2⟩ := mem_renamesAux pre rest (i + 1) p hp
      rw [h2] at hpe
      have := tempName_index_injective pre ((i + 1) + k) i _ _ hpe
      omega

theorem renames_tmp_fin_disj (pre : FName) (files : List Entry) :
    ∀ p ∈ renames pre files, ∀ q ∈ renames pre files, p.tmp ≠ q.fin := by
  intro p hp q hq
  obtain ⟨k, hk, h1, h2⟩ := renames_mem pre files p hp
  obtain ⟨k', hk', h1', h2'⟩ := renames_mem pre files q hq
  rw [h2, h2']
  exact tempName_ne_expectedName pre k k' _ _

theorem expectedNamesAux_length (pre : FName) (files : List Entry) (i : Nat) :
    (expectedNamesAux pre i files).length = files.length := by
  induction files generalizing i with
  | nil => rfl
  | cons f rest ih =>
    rw [expectedNamesAux, List.length_cons, List.length_cons, ih (i + 1)]

theorem expectedNamesAux_getElem (pre : FName) (files : List Entry) (i k : Nat)
    (hk : k < files.length)
    (hk2 : k < (expectedNamesAux pre i files).length) :
    (expectedNamesAux pre i files)[k] = expectedName pre (i + k) files[k].name := by
  induction files generalizing i k with
  | nil => simp at hk
  | cons f rest ih =>
    cases k with
    | zero => simp [expectedNamesAux]
    | succ k =>
      have hk' : k < rest.length := by simpa using hk
      have hk2' : k < (expectedNamesAux pre (i + 1) rest).length := by
        rw [expectedNamesAux_length]
        exact hk'
      have hidx : i + (k + 1) = (i + 1) + k := by omega
      show (expectedNamesAux pre (i + 1) rest)[k] = _
      rw [ih (i + 1) k hk' hk2', List.getElem_cons_succ, hidx]

theorem mem_expectedNamesAux (pre : FName) (files : List Entry) (i : Nat)
    (nm : FName) (h : nm ∈ expectedNamesAux pre i files) :
    ∃ k, ∃ hk : k < files.length,
      nm = expectedName pre (i + k) files[k].name := by
  induction files generalizing i with
  | nil => cases h
  | cons f rest ih =>
    rw [expectedNamesAux] at h
    rcases List.mem_cons.mp h with h1 | h1
    · exact ⟨0, by simp, by simpa using h1⟩
    · obtain ⟨k, hk, he⟩ := ih (i + 1) h1
      refine ⟨k + 1, by simpa using Nat.succ_lt_succ hk, ?_⟩
      rw [List.getElem_cons_succ]
      rw [he]
      have hidx : (i + 1) + k = i + (k + 1) := by omega
      rw [hidx]

theorem expectedNamesAux_nodup (pre : FName) (files : List Entry) (i : Nat) :
    (expectedNamesAux pre i files).Nodup := by
  induction files generalizing i with
  | nil => exact List.nodup_nil
  | cons f rest ih =>
    rw [expectedNamesAux, List.nodup_cons]
    refine ⟨?_, ih (i + 1)⟩
    intro hmem
    obtain ⟨k, hk, he⟩ := mem_expectedNamesAux pre rest (i + 1) _ hmem
    have := expectedName_index_injective pre i ((i + 1) + k) _ _ he
    omega

theorem get_real_image_files_sublist (d : List Entry) :
    (get_real_image_files d).Sublist d := by
  unfold get_real_image_files
  exact List.filter_sublist d

theorem sorted_resolve_names_nodup (d : List Entry)
    (hnd : (d.map Entry.name).Nodup) :
    ((sortByCtime (get_real_image_files d)).map Entry.name).Nodup := by
  have h1 : ((get_real_image_files d).map Entry.name).Nodup :=
    ((get_real_image_files_sublist d).map Entry.name).nodup hnd
  exact (((sortByCtime_perm (get_real_image_files d)).map Entry.name).nodup_iff).mpr h1

theorem sorted_resolve_names_subset (d : List Entry) :
    ∀ nm ∈ (sortByCtime (get_real_image_files d)).map Entry.name,
      nm ∈ d.map Entry.name := by
  intro nm hm
  have h1 := ((sortByCtime_perm (get_real_image_files d)).map Entry.name).mem_iff.mp hm
  exact ((get_real_image_files_sublist d).map Entry.name).subset h1

theorem idxOfName_eq_of_name_eq (s : List Entry) (nm nm2 : FName)
    (h : nm = nm2) : idxOfName nm s = idxOfName nm2 s := by rw [h]

theorem spec_comp_eq_reassign (pre : FName) (d s : List Entry)
    (hsnd : (s.map Entry.name).Nodup)
    (hsub : ∀ nm ∈ s.map Entry.name, nm ∈ d.map Entry.name)
    (hP5 : ∀ p ∈ renames pre s, ∀ nm ∈ d.map Entry.name,
      nm = p.tmp → nm ∈ (renames pre s).map PlanEntry.cur) :
    ∀ e ∈ d, phase2Spec (renames pre s) (phase1Spec (renames pre s) e) =
      reassign pre s e := by
  intro e he
  have hcnd : ((renames pre s).map PlanEntry.cur).Nodup :=
    (renamesAux_cur_sublist pre s 0).nodup hsnd
  have htnd := renamesAux_tmp_nodup pre s 0
  have hcurs_sub : ∀ nm ∈ (renames pre s).map PlanEntry.cur,
      nm ∈ s.map Entry.name := fun nm h => (renamesAux_cur_sublist pre s 0).subset h
  have hed : e.name ∈ d.map Entry.name := List.mem_map_of_mem Entry.name he
  by_cases hmem : e.name ∈ s.map Entry.name
  · obtain ⟨f, hf, hfe⟩ := List.mem_map.mp hmem
    obtain ⟨k, hk, hfk⟩ := List.getElem_of_mem hf
    have hsk : s[k].name = e.name := by rw [hfk, hfe]
    by_cases hne : s[k].name = expectedName pre k s[k].name
    · -- already correctly named: not in the plan, untouched
      have hnotcur : e.name ∉ (renames pre s).map PlanEntry.cur := by
        intro hc
        obtain ⟨p, hp, hpe⟩ := List.mem_map.mp hc
        obtain ⟨k', hk', h1', h2'⟩ := renames_mem pre s p hp
        have hkk : s[k'].name = e.name := by rw [h2'] at hpe; exact hpe
        have hi1 : idxOfName s[k'].name s = some k' := idxOfName_getElem s hsnd k' hk'
        have hi2 : idxOfName s[k].name s = some k := idxOfName_getElem s hsnd k hk
        rw [idxOfName_eq_of_name_eq s _ _ (hkk.trans hsk.symm)] at hi1
        rw [hi2] at hi1
        have hkeq : k' = k := (Option.some.inj hi1).symm
        subst hkeq
        exact h1' hne
      have hnottmp : e.name ∉ (renames pre s).map PlanEntry.tmp := by
        intro hc
        obtain ⟨p, hp, hpe⟩ := List.mem_map.mp hc
        exact hnotcur (hP5 p hp e.name hed hpe.symm)
      rw [phase1Spec_eq_of_none _ _ (findCur_of_not_mem _ _ hnotcur),
        phase2Spec_eq_of_none _ _ (findTmp_of_not_mem _ _ hnottmp),
        reassign_eq_of_some pre s e k
          (by rw [idxOfName_eq_of_name_eq s e.name s[k].name hsk.symm]
              exact idxOfName_getElem s hsnd k hk)]
      have hexp : expectedName pre k e.name = e.name := by
        rw [← hsk]
        exact hne.symm
      rw [hexp]
    · -- in the plan: renamed via its temporary to the expected name
      have hpk := renamesAux_mem_of_ne pre s 0 k hk (by simpa using hne)
      simp only [Nat.zero_add] at hpk
      have hfind1 : findCur e.name (renames pre s) =
          some ⟨s[k].name, tempName pre k s[k].name,
                expectedName pre k s[k].name⟩ := by
        rw [← hsk]
        exact findCur_of_mem_nodup (renames pre s) _ hpk hcnd
      rw [phase1Spec_eq_of_some _ _ _ hfind1]
      have hfind2 : findTmp (tempName pre k s[k].name) (renames pre s) =
          some ⟨s[k].name, tempName pre k s[k].name,
                expectedName pre k s[k].name⟩ :=
        findTmp_of_mem_nodup (renames pre s) _ hpk htnd
      rw [phase2Spec_eq_of_some _ _ _ hfind2,
        reassign_eq_of_some pre s e k
          (by rw [idxOfName_eq_of_name_eq s e.name s[k].name hsk.symm]
              exact idxOfName_getElem s hsnd k hk)]
      rw [← hsk]
  · -- not an image file of this pass: untouched on both sides
    have hnotcur : e.name ∉ (renames pre s).map PlanEntry.cur := by
      intro hc
      exact hmem (hcurs_sub e.name hc)
    have hnottmp : e.name ∉ (renames pre s).map PlanEntry.tmp := by
      intro hc
      obtain ⟨p, hp, hpe⟩ := List.mem_map.mp hc
      exact hnotcur (hP5 p hp e.name hed hpe.symm)
    rw [phase1Spec_eq_of_none _ _ (findCur_of_not_mem _ _ hnotcur),
      phase2Spec_eq_of_none _ _ (findTmp_of_not_mem _ _ hnottmp),
      reassign_eq_of_none pre s e (idxOfName_of_not_mem e.name s hmem)]

/-- Main characterization of a fully successful pass of the corrected
implementation: each resolved file ends at its expected name, everything
else is untouched, and the expected names are exactly
`{prefix}_01 … {prefix}_NN` with no duplicates. -/
theorem reorganize_ok_spec (pre : FName) (d : List Entry)
    (hnd : (d.map Entry.name).Nodup)
    (hok : (reorganize_all_files pre d).2 = true) :
    (reorganize_all_files pre d).1 =
      d.map (reassign pre (sortByCtime (get_real_image_files d))) ∧
    (sortByCtime (get_real_image_files d)).map
        (fun e => (reassign pre (sortByCtime (get_real_image_files d)) e).name) =
      expectedNames pre (sortByCtime (get_real_image_files d)) ∧
    (expectedNames pre (sortByCtime (get_real_image_files d))).Nodup := by
  have hsnd := sorted_resolve_names_nodup d hnd
  have hsub := sorted_resolve_names_subset d
  have hok' : ((runPhase1 (renames pre (sortByCtime (get_real_image_files d))) d).ok &&
      (runPhase2 (runPhase1 (renames pre (sortByCtime (get_real_image_files d))) d).succ
        (runPhase1 (renames pre (sortByCtime (get_real_image_files d))) d).dir).ok) =
      true := hok
  obtain ⟨hok1, hok2⟩ := Bool.and_eq_true_iff.mp hok'
  have hcur : ∀ p ∈ renames pre (sortByCtime (get_real_image_files d)),
      p.cur ∈ d.map Entry.name := fun p hp =>
    hsub p.cur ((renamesAux_cur_sublist pre _ 0).subset
      (List.mem_map_of_mem PlanEntry.cur hp))
  have hcnd : ((renames pre (sortByCtime (get_real_image_files d))).map
      PlanEntry.cur).Nodup :=
    (renamesAux_cur_sublist pre _ 0).nodup hsnd
  obtain ⟨h1dir, h1succ, h1nd, h1tmp, h1five⟩ :=
    runPhase1_ok (renames pre (sortByCtime (get_real_image_files d))) d
      hnd hcur hcnd hok1
  rw [h1succ, h1dir] at hok2
  have h2dir :=
    runPhase2_ok (renames pre (sortByCtime (get_real_image_files d)))
      (d.map (phase1Spec (renames pre (sortByCtime (get_real_image_files d)))))
      h1nd h1tmp (renamesAux_tmp_nodup pre _ 0)
      (renames_tmp_fin_disj pre _) hok2
  refine ⟨?_, ?_, expectedNamesAux_nodup pre _ 0⟩
  · show (runPhase2
        (runPhase1 (renames pre (sortByCtime (get_real_image_files d))) d).succ
        (runPhase1 (renames pre (sortByCtime (get_real_image_files d))) d).dir).dir = _
    rw [h1succ, h1dir, h2dir, List.map_map]
    apply mapCongrMem
    intro e he
    exact spec_comp_eq_reassign pre d (sortByCtime (get_real_image_files d))
      hsnd hsub h1five e he
  · apply List.ext_getElem
    · rw [List.length_map]
      show _ = (expectedNamesAux pre 0 (sortByCtime (get_real_image_files d))).length
      rw [expectedNamesAux_length]
    · intro k hk1 hk2
      have hks : k < (sortByCtime (get_real_image_files d)).length := by
        simpa using hk1
      rw [List.getElem_map,
        reassign_eq_of_some pre _ _ k (idxOfName_getElem _ hsnd k hks)]
      show expectedName pre k _ =
        (expectedNamesAux pre 0 (sortByCtime (get_real_image_files d)))[k]
      rw [expectedNamesAux_getElem pre _ 0 k hks (by simpa using hk2),
        Nat.zero_add]

/-- The example scenario of the specification: `vacation.png` (10:00:00),
`IMG_002.jpg` (10:00:05), `Horizon_01.jpeg` (10:00:10), prefix
`Horizon`. -/
def exDir1 : List Entry :=
  [⟨"vacation.png".data, 0, true, true, true, 100, true⟩,
   ⟨"IMG_002.jpg".data, 5, true, true, true, 100, true⟩,
   ⟨"Horizon_01.jpeg".data, 10, true, true, true, 100, true⟩]

def exPre1 : FName := "Horizon".data

/-- C1: after any reconciliation pass of the corrected implementation in
which every rename succeeds, on a directory with pairwise-distinct entry
names, the entry that was at chronological position `k` among the N
resolved image files ends up named `expectedName pre k` (`reassign`),
so the resulting names of those files are exactly
`{prefix}_01 … {prefix}_NN` — each with that file's original extension
(`Path.suffix`) lower-cased — with no gaps (the indices are exactly
`1 … N`) and no duplicate names, regardless of the files' prior names;
entries that were not resolved are untouched. -/
theorem c1_contiguity (pre : FName) (d : List Entry)
    (hnd : (d.map Entry.name).Nodup)
    (hok : (reorganize_all_files pre d).2 = true) :
    (reorganize_all_files pre d).1 =
      d.map (reassign pre (sortByCtime (get_real_image_files d))) ∧
    (sortByCtime (get_real_image_files d)).map
        (fun e => (reassign pre (sortByCtime (get_real_image_files d)) e).name) =
      expectedNames pre (sortByCtime (get_real_image_files d)) ∧
    (expectedNames pre (sortByCtime (get_real_image_files d))).Nodup :=
  reorganize_ok_spec pre d hnd hok

theorem c1_contiguity_witness :
    ((exDir1.map Entry.name).Nodup ∧ (reorganize_all_files exPre1 exDir1).2 = true) ∧
    ((reorganize_all_files exPre1 exDir1).1 =
        exDir1.map (reassign exPre1 (sortByCtime (get_real_image_files exDir1))) ∧
      (sortByCtime (get_real_image_files exDir1)).map
          (fun e => (reassign exPre1 (sortByCtime (get_real_image_files exDir1)) e).name) =
        expectedNames exPre1 (sortByCtime (get_real_image_files exDir1)) ∧
      (expectedNames exPre1 (sortByCtime (get_real_image_files exDir1))).Nodup) :=
  ⟨⟨by decide, by decide⟩, c1_contiguity exPre1 exDir1 (by decide) (by decide)⟩

/-- C2: for every ordered file list and every prefix, within the rename
plan computed in a single pass, the `temporaryName` values
(`TEMP_<i+1 zero-padded>_<prefix>.<ext>`) are pairwise distinct and are
disjoint from every `finalName` value
(`<prefix>_<i+1 zero-padded>.<ext>`) of that plan. -/
theorem c2_temp_names_safe (pre : FName) (files : List Entry) :
    ((renames pre files).map PlanEntry.tmp).Nodup ∧
    List.Disjoint ((renames pre files).map PlanEntry.tmp)
      ((renames pre files).map PlanEntry.fin) := by
  refine ⟨renamesAux_tmp_nodup pre files 0, ?_⟩
  intro nm h1 h2
  obtain ⟨p, hp, hpe⟩ := List.mem_map.mp h1
  obtain ⟨q, hq, hqe⟩ := List.mem_map.mp h2
  have hd := renames_tmp_fin_disj pre files p hp q hq
  rw [hpe, hqe] at hd
  exact hd rfl

theorem temp_namesAux_eq_renamesAux (pre : FName) (files : List Entry) (i : Nat) :
    temp_namesAux pre i files = renamesAux pre i files := by
  induction files generalizing i with
  | nil => rfl
  | cons f rest ih =>
    rw [temp_namesAux, renamesAux]
    split_ifs with hf
    · exact ih (i + 1)
    · rw [ih (i + 1)]

/-- C10: for every ordered file list and every prefix, the
plan-computation step of the original implementation (`temp_names`) and
that of the corrected implementation (`renames`) produce exactly the
same sequence of `(currentPath, temporaryName, finalName)` triples. -/
theorem c10_plan_equivalence (pre : FName) (files : List Entry) :
    temp_names pre files = renames pre files :=
  temp_namesAux_eq_renamesAux pre files 0

def exA4 : Entry := ⟨"a.png".data, 5, true, true, true, 100, true⟩

def exB4 : Entry := ⟨"b.png".data, 5, true, true, true, 100, true⟩

/-- C4 counterexample: the code sorts by creation time only (a stable
sort); for two files with equal creation timestamps the result follows
the enumeration order, not the filename order, so the output is not a
function of the set of (path, creation-time) pairs alone: the same
two-element set sorts differently under the two enumeration orders, and
in particular the tie is not broken by filename (`a.png` < `b.png`, yet
`b.png` comes first when enumerated first). -/
theorem c4_counterexample :
    exA4.ctime = exB4.ctime ∧
    sortByCtime [exB4, exA4] ≠ sortByCtime [exA4, exB4] ∧
    sortByCtime [exB4, exA4] = [exB4, exA4] := by
  refine ⟨rfl, by decide, by decide⟩

/-- C4 amended: the resolver orders the surviving files by creation
timestamp ascending using a stable sort: the result is sorted by
`ctime`, is a permutation of the input, and entries with equal
timestamps keep their enumeration order (so for tied timestamps the
order depends on enumeration order, not on the filename). -/
theorem c4_sort_stable (l : List Entry) :
    List.Sorted ctle (sortByCtime l) ∧ (sortByCtime l).Perm l ∧
    ∀ t, (sortByCtime l).filter (fun e => decide (e.ctime = t)) =
      l.filter (fun e => decide (e.ctime = t)) :=
  ⟨sortByCtime_sorted l, sortByCtime_perm l, sortByCtime_stable l⟩

/-- The engine state visible to the two trigger paths: the single-flight
flag (`self.processing`), the prefix, and the watched directory. -/
structure EngineState where
  processing : Bool
  pre : FName
  dir : List Entry
deriving DecidableEq

/-- The event-triggered path `process_new_file` (corrected
implementation, lines 138-142): a trigger arriving while `processing` is
held is dropped; otherwise the flag is taken, the pass runs, and the
flag is released. -/
def process_new_file (st : EngineState) : EngineState :=
  if st.processing then st
  else { st with dir := (reorganize_all_files st.pre st.dir).1 }

/-- Menu option 4 of `run_interactive_menu` (corrected implementation,
lines 600-607): it calls `event_handler.reorganize_all_files` directly,
without consulting the single-flight flag. -/
def menu_reorganize (st : EngineState) : EngineState :=
  { st with dir := (reorganize_all_files st.pre st.dir).1 }

def exSt5 : EngineState :=
  ⟨true, "H".data, [⟨"a.png".data, 0, true, true, true, 100, true⟩]⟩

/-- C5 counterexample: with the single-flight flag held
(`processing = true`), the menu-triggered reorganization still runs the
pass and changes the directory — it is not a no-op, so the manual
trigger is not subject to the single-flight guard. -/
theorem c5_counterexample :
    exSt5.processing = true ∧ menu_reorganize exSt5 ≠ exSt5 := by
  refine ⟨rfl, by decide⟩

/-- C5 amended: a manual (menu-triggered) reorganization bypasses the
debounce filter and also the single-flight guard: its effect is
independent of the `processing` flag (it runs the pass unconditionally),
whereas the event path `process_new_file` does consult the flag and is a
no-op while a pass is in flight. -/
theorem c5_manual_bypasses_guard (st : EngineState) :
    (menu_reorganize { st with processing := true }).dir =
      (menu_reorganize { st with processing := false }).dir ∧
    (menu_reorganize st).dir = (reorganize_all_files st.pre st.dir).1 ∧
    process_new_file { st with processing := true } =
      { st with processing := true } := by
  refine ⟨rfl, rfl, ?_⟩
  unfold process_new_file
  rw [if_pos rfl]

/-- One observation of the stability-probe polling loop. -/
structure Poll where
  present : Bool
  statOk : Bool
  size : Nat
deriving DecidableEq

/-- The polling loop of `wait_for_file_stable` / `_wait_file_stable`:
`polls` are the observations made before the timeout elapses; `some b`
means the loop returned `b`, `none` that the timeout elapsed first.
`lastSize` starts at `-1` and the stability counter at `0`; the file is
declared stable when the counter reaches 2. -/
def stableLoop : List Poll → Int → Nat → Option Bool
  | [], _, _ => none
  | p :: rest, lastSize, cnt =>
    if p.present = false then some false
    else if p.statOk = false then some false
    else if 0 < p.size ∧ (p.size : Int) = lastSize then
      (if 2 ≤ cnt + 1 then some true
       else stableLoop rest (p.size : Int) (cnt + 1))
    else if 0 < p.size then stableLoop rest (p.size : Int) 0
    else stableLoop rest (p.size : Int) cnt

/-- `wait_for_file_stable`: run the polling loop; on timeout, accept the
file iff a final `stat` succeeds (`finalStat = some size`) with a
strictly positive size; return false if the size is zero or the final
`stat` raises (`finalStat = none`). -/
def wait_for_file_stable (polls : List Poll) (finalStat : Option Nat) : Bool :=
  match stableLoop polls (-1) 0 with
  | some b => b
  | none =>
    match finalStat with
    | some s => decide (0 < s)
    | none => false

/-- C9: if the stability probe's timeout elapses without the counter of
consecutive unchanged, strictly-positive size polls reaching 2 (the loop
returns nothing), the probe returns true exactly when the final size
check succeeds and reports a strictly positive size, and false when the
size is zero or the file can no longer be accessed. -/
theorem c9_timeout_fallback (polls : List Poll) (finalStat : Option Nat)
    (htimeout : stableLoop polls (-1) 0 = none) :
    wait_for_file_stable polls finalStat = true ↔
      ∃ s, finalStat = some s ∧ 0 < s := by
  unfold wait_for_file_stable
  rw [htimeout]
  cases finalStat with
  | none => simp
  | some s => simp

theorem c9_timeout_fallback_witness :
    stableLoop [] (-1) 0 = none ∧
    (wait_for_file_stable [] (some 3) = true ↔
      ∃ s, (some 3 : Option Nat) = some s ∧ 0 < s) :=
  ⟨rfl, c9_timeout_fallback [] (some 3) rfl⟩

theorem runPhase1_append (A B : List PlanEntry) (d : List Entry) :
    runPhase1 (A ++ B) d =
      ⟨(runPhase1 B (runPhase1 A d).dir).dir,
       (runPhase1 A d).succ ++ (runPhase1 B (runPhase1 A d).dir).succ,
       ((runPhase1 A d).ok && (runPhase1 B (runPhase1 A d).dir).ok)⟩ := by
  induction A generalizing d with
  | nil => rfl
  | cons p A ih =>
    by_cases hro : renameOk p.cur p.tmp d
    · have h1 : runPhase1 (p :: A) d =
          ⟨(runPhase1 A (renameApply p.cur p.tmp d)).dir,
           p :: (runPhase1 A (renameApply p.cur p.tmp d)).succ,
           (runPhase1 A (renameApply p.cur p.tmp d)).ok⟩ := by
        rw [runPhase1, if_pos hro]
      have h2 : runPhase1 (p :: A ++ B) d =
          ⟨(runPhase1 (A ++ B) (renameApply p.cur p.tmp d)).dir,
           p :: (runPhase1 (A ++ B) (renameApply p.cur p.tmp d)).succ,
           (runPhase1 (A ++ B) (renameApply p.cur p.tmp d)).ok⟩ := by
        rw [List.cons_append, runPhase1, if_pos hro]
      rw [h2, ih, h1]
      simp
    · have h1 : runPhase1 (p :: A) d =
          ⟨(runPhase1 A d).dir, (runPhase1 A d).succ, false⟩ := by
        rw [runPhase1, if_neg hro]
      have h2 : runPhase1 (p :: A ++ B) d =
          ⟨(runPhase1 (A ++ B) d).dir, (runPhase1 (A ++ B) d).succ, false⟩ := by
        rw [List.cons_append, runPhase1, if_neg hro]
      rw [h2, ih, h1]
      simp

def exDir6 : List Entry :=
  [⟨"a.png".data, 0, true, true, true, 100, true⟩,
   ⟨"b.png".data, 1, true, true, true, 100, true⟩,
   ⟨"TEMP_01_H.png".data, 2, true, true, true, 100, true⟩]

/-- C6 counterexample: in the original implementation, a phase-1 failure
aborts the whole pass.  Here the first plan entry's rename
(`a.png → TEMP_01_H.png`) fails because the target name already exists;
the original phase 1 then stops, leaving the directory entirely
unchanged and never executing phase 2, although the remaining entry's
rename (`b.png → TEMP_02_H.png`) would have succeeded — contradicting
"one entry's failure never aborts the rest of the plan". -/
theorem c6_counterexample :
    (temp_names "H".data (sortByCtime (glob_image_files exDir6))).length = 3 ∧
    runPhase1Orig (temp_names "H".data (sortByCtime (glob_image_files exDir6)))
      exDir6 = (exDir6, false) ∧
    (reorganize_all_files_orig "H".data exDir6).1 = exDir6 ∧
    renameOk "b.png".data "TEMP_02_H.png".data exDir6 = true := by
  refine ⟨by decide, by decide, by decide, by decide⟩

/-- C6 amended (behaviour of the corrected implementation): when the
phase-1 rename of a single plan entry `p` fails, only that entry is
excluded: the resulting directory and the list of successfully
phase-1'd entries (hence the entries processed by phase 2) are exactly
those of the same run without `p`, and the all-renames-succeeded flag is
false.  In the original implementation a phase-1 failure instead aborts
the whole pass. -/
theorem c6_per_entry_failure (A B : List PlanEntry) (p : PlanEntry)
    (d : List Entry)
    (hfail : renameOk p.cur p.tmp (runPhase1 A d).dir = false) :
    (runPhase1 (A ++ p :: B) d).dir = (runPhase1 (A ++ B) d).dir ∧
    (runPhase1 (A ++ p :: B) d).succ = (runPhase1 (A ++ B) d).succ ∧
    (runPhase1 (A ++ p :: B) d).ok = false := by
  have hmid : runPhase1 (p :: B) (runPhase1 A d).dir =
      ⟨(runPhase1 B (runPhase1 A d).dir).dir,
       (runPhase1 B (runPhase1 A d).dir).succ, false⟩ := by
    rw [runPhase1, if_neg (by rw [hfail]; exact Bool.false_ne_true)]
  rw [runPhase1_append A (p :: B) d, runPhase1_append A B d, hmid]
  refine ⟨rfl, rfl, by simp⟩

theorem c6_per_entry_failure_witness :
    renameOk "a.png".data "TEMP_01_H.png".data (runPhase1 [] exDir6).dir = false ∧
    ((runPhase1 ([] ++ (⟨"a.png".data, "TEMP_01_H.png".data, "H_01.png".data⟩ :
        PlanEntry) :: [⟨"b.png".data, "TEMP_02_H.png".data, "H_02.png".data⟩])
        exDir6).dir =
      (runPhase1 ([] ++ [⟨"b.png".data, "TEMP_02_H.png".data, "H_02.png".data⟩])
        exDir6).dir ∧
     (runPhase1 ([] ++ (⟨"a.png".data, "TEMP_01_H.png".data, "H_01.png".data⟩ :
        PlanEntry) :: [⟨"b.png".data, "TEMP_02_H.png".data, "H_02.png".data⟩])
        exDir6).succ =
      (runPhase1 ([] ++ [⟨"b.png".data, "TEMP_02_H.png".data, "H_02.png".data⟩])
        exDir6).succ ∧
     (runPhase1 ([] ++ (⟨"a.png".data, "TEMP_01_H.png".data, "H_01.png".data⟩ :
        PlanEntry) :: [⟨"b.png".data, "TEMP_02_H.png".data, "H_02.png".data⟩])
        exDir6).ok = false) :=
  ⟨by decide, c6_per_entry_failure [] _ _ exDir6 (by decide)⟩

def exGhost7 : Entry := ⟨"ghost.png".data, 0, true, true, true, 100, false⟩

def exDir7 : List Entry :=
  [exGhost7, ⟨"b.png".data, 1, true, true, true, 100, true⟩]

/-- C7 counterexample: in the original implementation the file listing
is glob-based with no accessibility checks, so a directory entry whose
`stat` succeeds but whose one-byte read fails is still listed and does
appear as an entry of the computed rename plan. -/
theorem c7_counterexample :
    exGhost7.statOk = true ∧ exGhost7.readOk = false ∧
    exGhost7 ∈ glob_image_files exDir7 ∧
    exGhost7.name ∈ (temp_names "H".data
      (sortByCtime (glob_image_files exDir7))).map PlanEntry.cur := by
  refine ⟨rfl, rfl, by decide, by decide⟩

/-- C7 amended (behaviour of the corrected implementation's resolver
`get_real_image_files`): an entry whose `stat` succeeds but whose
one-byte read fails is excluded from the resolved file set, and its name
never appears as the current path of any entry of the computed rename
plan. -/
theorem c7_phantom_excluded (d : List Entry) (e : Entry) (pre : FName)
    (hnd : (d.map Entry.name).Nodup)
    (he : e ∈ d) (hstat : e.statOk = true) (hread : e.readOk = false) :
    e ∉ get_real_image_files d ∧
    e.name ∉ (renames pre (sortByCtime (get_real_image_files d))).map
      PlanEntry.cur := by
  have hacc : acceptEntry e = false := by
    unfold acceptEntry
    rw [hread]
    simp
  constructor
  · intro hmem
    have hp : acceptEntry e = true := List.of_mem_filter hmem
    rw [hacc] at hp
    cases hp
  · intro hmem
    have h1 : e.name ∈ (sortByCtime (get_real_image_files d)).map Entry.name :=
      (renamesAux_cur_sublist pre _ 0).subset hmem
    have h2 : e.name ∈ (get_real_image_files d).map Entry.name :=
      ((sortByCtime_perm _).map Entry.name).mem_iff.mp h1
    obtain ⟨f, hf, hfe⟩ := List.mem_map.mp h2
    have hfd : f ∈ d := (get_real_image_files_sublist d).subset hf
    have hef : f = e := List.inj_on_of_nodup_map hnd hfd he hfe
    have hfa : acceptEntry f = true := List.of_mem_filter hf
    rw [hef, hacc] at hfa
    cases hfa

theorem c7_phantom_excluded_witness :
    ((exDir7.map Entry.name).Nodup ∧ exGhost7 ∈ exDir7 ∧
      exGhost7.statOk = true ∧ exGhost7.readOk = false) ∧
    (exGhost7 ∉ get_real_image_files exDir7 ∧
      exGhost7.name ∉ (renames "H".data
        (sortByCtime (get_real_image_files exDir7))).map PlanEntry.cur) :=
  ⟨⟨by decide, by decide, rfl, rfl⟩,
   c7_phantom_excluded exDir7 exGhost7 "H".data (by decide) (by decide) rfl rfl⟩

theorem map_eq_append_split {α β : Type} (f : α → β) (l : List α)
    (a b : List β) (h : l.map f = a ++ b) :
    ∃ l₁ l₂, l = l₁ ++ l₂ ∧ l₁.map f = a ∧ l₂.map f = b := by
  induction l generalizing a with
  | nil =>
    cases a with
    | nil => exact ⟨[], [], rfl, rfl, h⟩
    | cons x a' => cases h
  | cons c l ih =>
    cases a with
    | nil => exact ⟨[], c :: l, rfl, rfl, h⟩
    | cons x a' =>
      rw [List.map_cons, List.cons_append] at h
      have hx : f c = x := List.head_eq_of_cons_eq h
      obtain ⟨l₁, l₂, he, h1, h2⟩ := ih a' (List.tail_eq_of_cons_eq h)
      exact ⟨c :: l₁, l₂, by rw [he, List.cons_append],
        by rw [List.map_cons, h1, hx], h2⟩

/-- If a lower-cased name ends in the dot-headed extension `e` but is
not `e` alone, then its python suffix lower-cases exactly to `e`. -/
theorem accepted_suffix_one (nm : FName) (e t : List Char)
    (het : e = '.' :: t) (htne : t ≠ []) (htdot : '.' ∉ t)
    (hsuf : List.IsSuffix e (lowerL nm)) (hne : lowerL nm ≠ e) :
    lowerL (pySuffix nm) = e := by
  obtain ⟨b, hb⟩ := hsuf
  obtain ⟨nm₁, nm₂, hnm, h1, h2⟩ := map_eq_append_split asciiLower nm b e hb.symm
  subst het
  cases nm₂ with
  | nil => cases h2
  | cons c t₂ =>
    rw [List.map_cons] at h2
    have hc : asciiLower c = '.' := List.head_eq_of_cons_eq h2
    have hcd : c = '.' := (asciiLower_eq_dot_iff c).mp hc
    have ht₂ : t₂.map asciiLower = t := List.tail_eq_of_cons_eq h2
    have ht₂dot : '.' ∉ t₂ := by
      intro hmem
      apply htdot
      rw [← ht₂]
      exact List.mem_map.mpr ⟨'.', hmem, (asciiLower_eq_dot_iff '.').mpr rfl⟩
    have ht₂ne : t₂ ≠ [] := by
      intro hh
      rw [hh] at ht₂
      exact htne ht₂.symm
    have hnm₁ : nm₁ ≠ [] := by
      intro hh
      rw [hh, List.nil_append] at hnm
      rw [hnm] at hne
      apply hne
      show (c :: t₂).map asciiLower = _
      rw [List.map_cons, hc, ht₂]
    rw [hnm, hcd, pySuffix_append_dot nm₁ t₂ hnm₁ ht₂ne ht₂dot]
    show (('.' : Char) :: t₂).map asciiLower = _
    rw [List.map_cons, (asciiLower_eq_dot_iff '.').mpr rfl, ht₂]

/-- For an accepted file whose name is not extension-only, the
lower-cased python suffix is one of the three image extensions. -/
theorem accepted_suffix (nm : FName) (hacc : lowerExtOk nm = true)
    (hdot : lowerL nm ∉ [".png".data, ".jpg".data, ".jpeg".data]) :
    lowerL (pySuffix nm) ∈ [".png".data, ".jpg".data, ".jpeg".data] := by
  have hne1 : lowerL nm ≠ ".png".data := fun hh => hdot (by rw [hh]; simp)
  have hne2 : lowerL nm ≠ ".jpg".data := fun hh => hdot (by rw [hh]; simp)
  have hne3 : lowerL nm ≠ ".jpeg".data := fun hh => hdot (by rw [hh]; simp)
  unfold lowerExtOk at hacc
  simp only [Bool.or_eq_true, decide_eq_true_eq] at hacc
  rcases hacc with (h | h) | h
  · rw [accepted_suffix_one nm (".png".data) ("png".data) rfl (by decide)
      (by decide) h hne1]
    simp
  · rw [accepted_suffix_one nm (".jpg".data) ("jpg".data) rfl (by decide)
      (by decide) h hne2]
    simp
  · rw [accepted_suffix_one nm (".jpeg".data) ("jpeg".data) rfl (by decide)
      (by decide) h hne3]
    simp

/-- Decidable checker for the wire format
`^<prefix>_<digits, at least 2>\.(png|jpg|jpeg)$` with the extension
lower-cased. -/
def wireFormat (pre nm : FName) : Bool :=
  decide (List.IsPrefix (pre ++ ['_']) nm) &&
  ([".png".data, ".jpg".data, ".jpeg".data].any (fun e =>
    decide (List.IsSuffix e (nm.drop (pre.length + 1))) &&
    decide (2 ≤ (nm.drop (pre.length + 1)).length - e.length) &&
    ((nm.drop (pre.length + 1)).take
      ((nm.drop (pre.length + 1)).length - e.length)).all Char.isDigit))

theorem wireFormat_of_structure (pre : FName) (k : Nat) (e : FName)
    (he : e ∈ [".png".data, ".jpg".data, ".jpeg".data]) :
    wireFormat pre (pre ++ '_' :: (pad2 (k + 1) ++ e)) = true := by
  unfold wireFormat
  have hsplit : pre ++ '_' :: (pad2 (k + 1) ++ e) =
      (pre ++ ['_']) ++ (pad2 (k + 1) ++ e) := by
    rw [List.append_assoc]
    rfl
  rw [hsplit]
  apply Bool.and_eq_true_iff.mpr
  constructor
  · exact decide_eq_true ⟨pad2 (k + 1) ++ e, rfl⟩
  · apply List.any_eq_true.mpr
    refine ⟨e, he, ?_⟩
    have hdrop : ((pre ++ ['_']) ++ (pad2 (k + 1) ++ e)).drop (pre.length + 1) =
        pad2 (k + 1) ++ e := by
      have hlen : (pre ++ ['_']).length = pre.length + 1 := by simp
      rw [← hlen, List.drop_left]
    rw [hdrop]
    apply Bool.and_eq_true_iff.mpr
    constructor
    · apply Bool.and_eq_true_iff.mpr
      constructor
      · exact decide_eq_true ⟨pad2 (k + 1), rfl⟩
      · apply decide_eq_true
        rw [List.length_append]
        have := pad2_length (k + 1)
        omega
    · have htake : (pad2 (k + 1) ++ e).take
          ((pad2 (k + 1) ++ e).length - e.length) = pad2 (k + 1) := by
        rw [List.length_append]
        have h2 : (pad2 (k + 1)).length + e.length - e.length =
            (pad2 (k + 1)).length := by omega
        rw [h2, List.take_left]
      rw [htake]
      apply List.all_eq_true.mpr
      intro c hc
      exact pad2_isDigit (k + 1) c hc

/-- C8 amended: for every accepted file whose name is not itself one of
the bare extensions (so its python suffix is nonempty), every
`finalName` of the computed plan matches the wire format
`^<prefix>_\d{2,}\.(png|jpg|jpeg)$` with the extension lower-cased; its
numeric component is `pad2 (k+1)` for the file's 0-based chronological
index `k`: at least two digits, zero-padded below 10, and the plain
untruncated decimal rendering once the index exceeds 9 (index 100
renders as `100`). -/
theorem c8_final_name_format (pre : FName) (files : List Entry)
    (p : PlanEntry) (hp : p ∈ renames pre files)
    (hacc : ∀ f ∈ files, lowerExtOk f.name = true)
    (hdot : ∀ f ∈ files,
      lowerL f.name ∉ [".png".data, ".jpg".data, ".jpeg".data]) :
    wireFormat pre p.fin = true ∧
    ∃ k, ∃ hk : k < files.length,
      p.fin = pre ++ '_' :: (pad2 (k + 1) ++ lowerL (pySuffix files[k].name)) ∧
      lowerL (pySuffix files[k].name) ∈
        [".png".data, ".jpg".data, ".jpeg".data] ∧
      2 ≤ (pad2 (k + 1)).length ∧ (∀ c ∈ pad2 (k + 1), c.isDigit) ∧
      (k + 1 < 10 → pad2 (k + 1) = '0' :: decDigits (k + 1)) ∧
      (10 ≤ k + 1 → pad2 (k + 1) = decDigits (k + 1)) := by
  obtain ⟨k, hk, hne, hpe⟩ := renames_mem pre files p hp
  have hmem := accepted_suffix files[k].name
    (hacc _ (files.getElem_mem hk)) (hdot _ (files.getElem_mem hk))
  have hfin : p.fin =
      pre ++ '_' :: (pad2 (k + 1) ++ lowerL (pySuffix files[k].name)) := by
    rw [hpe]
    rfl
  refine ⟨?_, k, hk, hfin, hmem, pad2_length (k + 1), pad2_isDigit (k + 1),
    ?_, ?_⟩
  · rw [hfin]
    exact wireFormat_of_structure pre k _ hmem
  · intro h
    unfold pad2
    rw [if_pos h]
  · intro h
    unfold pad2
    rw [if_neg (by omega)]

def exFile8 : Entry := ⟨"x.PNG".data, 0, true, true, true, 100, true⟩

theorem c8_final_name_format_witness :
    ((⟨"x.PNG".data, "TEMP_01_H.png".data, "H_01.png".data⟩ : PlanEntry) ∈
        renames "H".data [exFile8] ∧
      (∀ f ∈ [exFile8], lowerExtOk f.name = true) ∧
      (∀ f ∈ [exFile8],
        lowerL f.name ∉ [".png".data, ".jpg".data, ".jpeg".data])) ∧
    (wireFormat "H".data
        (⟨"x.PNG".data, "TEMP_01_H.png".data, "H_01.png".data⟩ :
          PlanEntry).fin = true ∧
      ∃ k, ∃ hk : k < ([exFile8] : List Entry).length,
        (⟨"x.PNG".data, "TEMP_01_H.png".data, "H_01.png".data⟩ :
            PlanEntry).fin =
          "H".data ++ '_' ::
            (pad2 (k + 1) ++ lowerL (pySuffix ([exFile8] : List Entry)[k].name)) ∧
        lowerL (pySuffix ([exFile8] : List Entry)[k].name) ∈
          [".png".data, ".jpg".data, ".jpeg".data] ∧
        2 ≤ (pad2 (k + 1)).length ∧ (∀ c ∈ pad2 (k + 1), c.isDigit) ∧
        (k + 1 < 10 → pad2 (k + 1) = '0' :: decDigits (k + 1)) ∧
        (10 ≤ k + 1 → pad2 (k + 1) = decDigits (k + 1))) :=
  ⟨⟨by decide, by decide, by decide⟩,
   c8_final_name_format "H".data [exFile8] _ (by decide) (by decide) (by decide)⟩

def exDot8 : Entry := ⟨".png".data, 0, true, true, true, 100, true⟩

/-- C8 counterexample: the hidden-style file named exactly `.png` is
accepted by the resolver (its lower-cased name ends in `.png`), but its
pathlib suffix is empty, so the plan's final name for it is `H_01` with
no extension at all — it does not match the wire format
`^<prefix>_\d{2,}\.(png|jpg|jpeg)$`. -/
theorem c8_counterexample :
    acceptEntry exDot8 = true ∧
    renames "H".data [exDot8] =
      [⟨".png".data, "TEMP_01_H".data, "H_01".data⟩] ∧
    wireFormat "H".data "H_01".data = false := by
  refine ⟨by decide, by decide, by decide⟩

theorem reassign_ctime (pre : FName) (s : List Entry) (e : Entry) :
    (reassign pre s e).ctime = e.ctime := by
  cases h : idxOfName e.name s with
  | none => rw [reassign_eq_of_none _ _ _ h]
  | some k => rw [reassign_eq_of_some _ _ _ k h]

theorem orderedInsert_map_ctime (f : Entry → Entry)
    (hf : ∀ e, (f e).ctime = e.ctime) (a : Entry) (l : List Entry) :
    List.orderedInsert ctle (f a) (l.map f) =
      (List.orderedInsert ctle a l).map f := by
  induction l with
  | nil => rfl
  | cons b l ih =>
    rw [List.map_cons]
    simp only [List.orderedInsert]
    by_cases h : ctle a b
    · rw [if_pos (show ctle (f a) (f b) by unfold ctle; rw [hf, hf]; exact h),
        if_pos h, List.map_cons, List.map_cons]
    · rw [if_neg (show ¬ ctle (f a) (f b) by unfold ctle; rw [hf, hf]; exact h),
        if_neg h, List.map_cons, ih]

theorem sortByCtime_map_ctime (f : Entry → Entry)
    (hf : ∀ e, (f e).ctime = e.ctime) (l : List Entry) :
    sortByCtime (l.map f) = (sortByCtime l).map f := by
  induction l with
  | nil => rfl
  | cons a l ih =>
    show List.orderedInsert ctle (f a) (List.insertionSort ctle (l.map f)) = _
    rw [show List.insertionSort ctle (l.map f) = sortByCtime (l.map f) from rfl,
      ih]
    exact orderedInsert_map_ctime f hf a (List.insertionSort ctle l)

theorem filter_map_comm {α : Type} (f : α → α) (p : α → Bool) (l : List α)
    (h : ∀ a ∈ l, p (f a) = p a) :
    (l.map f).filter p = (l.filter p).map f := by
  induction l with
  | nil => rfl
  | cons a l ih =>
    rw [List.map_cons, List.filter_cons, List.filter_cons,
      h a (List.mem_cons_self a l)]
    have ih' := ih fun b hb => h b (List.mem_cons_of_mem a hb)
    by_cases hp : p a = true
    · rw [if_pos hp, if_pos hp, List.map_cons, ih']
    · rw [if_neg hp, if_neg hp, ih']

theorem idxOfName_some (nm : FName) (s : List Entry) (k : Nat)
    (h : idxOfName nm s = some k) :
    ∃ hk : k < s.length, s[k].name = nm := by
  induction s generalizing k with
  | nil => cases h
  | cons f rest ih =>
    rw [idxOfName] at h
    split_ifs at h with hf
    · have h0 : k = 0 := (Option.some.inj h).symm
      subst h0
      exact ⟨by simp, by simpa using hf⟩
    · cases hr : idxOfName nm rest with
      | none => rw [hr] at h; cases h
      | some j =>
        rw [hr] at h
        simp only [Option.map_some'] at h
        have hkj : k = j + 1 := (Option.some.inj h).symm
        subst hkj
        obtain ⟨hj, hje⟩ := ih j hr
        exact ⟨by simpa using Nat.succ_lt_succ hj, by simpa using hje⟩

theorem lowerExtOk_iff (nm : FName) :
    lowerExtOk nm = true ↔
      (List.IsSuffix (".png".data) (lowerL nm) ∨
       List.IsSuffix (".jpg".data) (lowerL nm) ∨
       List.IsSuffix (".jpeg".data) (lowerL nm)) := by
  unfold lowerExtOk
  simp [Bool.or_eq_true, or_assoc]

theorem pySuffix_expectedName_one (pre : FName) (k : Nat) (nm : FName)
    (t : List Char) (ht : t ≠ []) (htdot : '.' ∉ t)
    (h : lowerL (pySuffix nm) = '.' :: t) :
    pySuffix (expectedName pre k nm) = '.' :: t := by
  unfold expectedName
  rw [h]
  have hsplit : pre ++ '_' :: (pad2 (k + 1) ++ '.' :: t) =
      (pre ++ '_' :: pad2 (k + 1)) ++ '.' :: t := by
    rw [List.append_assoc, List.cons_append]
  rw [hsplit, pySuffix_append_dot _ t (by simp) ht htdot]

theorem expectedName_idempotent (pre : FName) (k k2 : Nat) (nm : FName)
    (hmem : lowerL (pySuffix nm) ∈ [".png".data, ".jpg".data, ".jpeg".data]) :
    expectedName pre k2 (expectedName pre k nm) =
      pre ++ '_' :: (pad2 (k2 + 1) ++ lowerL (pySuffix nm)) := by
  show pre ++ '_' ::
    (pad2 (k2 + 1) ++ lowerL (pySuffix (expectedName pre k nm))) = _
  simp only [List.mem_cons, List.not_mem_nil, or_false] at hmem
  rcases hmem with h | h | h
  · rw [pySuffix_expectedName_one pre k nm ("png".data) (by decide) (by decide) h]
    rw [show lowerL ('.' :: "png".data) = ".png".data from by decide, h]
  · rw [pySuffix_expectedName_one pre k nm ("jpg".data) (by decide) (by decide) h]
    rw [show lowerL ('.' :: "jpg".data) = ".jpg".data from by decide, h]
  · rw [pySuffix_expectedName_one pre k nm ("jpeg".data) (by decide) (by decide) h]
    rw [show lowerL ('.' :: "jpeg".data) = ".jpeg".data from by decide, h]

theorem lowerExtOk_expectedName (pre : FName) (k : Nat) (nm : FName)
    (hmem : lowerL (pySuffix nm) ∈ [".png".data, ".jpg".data, ".jpeg".data]) :
    lowerExtOk (expectedName pre k nm) = true := by
  rw [lowerExtOk_iff]
  have hsplit : expectedName pre k nm =
      (pre ++ '_' :: pad2 (k + 1)) ++ lowerL (pySuffix nm) := by
    unfold expectedName
    rw [List.append_assoc, List.cons_append]
  simp only [List.mem_cons, List.not_mem_nil, or_false] at hmem
  rcases hmem with h | h | h
  · left
    refine ⟨lowerL (pre ++ '_' :: pad2 (k + 1)), ?_⟩
    rw [hsplit, h]
    show lowerL _ ++ ".png".data = lowerL (_ ++ ".png".data)
    unfold lowerL
    simp [List.map_append,
      show (".png".data).map asciiLower = ".png".data from by decide]
  · right; left
    refine ⟨lowerL (pre ++ '_' :: pad2 (k + 1)), ?_⟩
    rw [hsplit, h]
    show lowerL _ ++ ".jpg".data = lowerL (_ ++ ".jpg".data)
    unfold lowerL
    simp [List.map_append,
      show (".jpg".data).map asciiLower = ".jpg".data from by decide]
  · right; right
    refine ⟨lowerL (pre ++ '_' :: pad2 (k + 1)), ?_⟩
    rw [hsplit, h]
    show lowerL _ ++ ".jpeg".data = lowerL (_ ++ ".jpeg".data)
    unfold lowerL
    simp [List.map_append,
      show (".jpeg".data).map asciiLower = ".jpeg".data from by decide]

theorem acceptEntry_reassign (pre : FName) (d : List Entry)
    (hnd : (d.map Entry.name).Nodup)
    (hdot : ∀ f ∈ get_real_image_files d,
      lowerL f.name ∉ [".png".data, ".jpg".data, ".jpeg".data]) :
    ∀ e ∈ d,
      acceptEntry (reassign pre (sortByCtime (get_real_image_files d)) e) =
        acceptEntry e := by
  intro e he
  cases hidx : idxOfName e.name (sortByCtime (get_real_image_files d)) with
  | none => rw [reassign_eq_of_none _ _ _ hidx]
  | some k =>
    rw [reassign_eq_of_some _ _ _ k hidx]
    obtain ⟨hk, hke⟩ := idxOfName_some _ _ k hidx
    have hmemres : (sortByCtime (get_real_image_files d))[k] ∈
        get_real_image_files d :=
      (sortByCtime_perm _).subset ((sortByCtime (get_real_image_files d)).getElem_mem hk)
    have hmemd : (sortByCtime (get_real_image_files d))[k] ∈ d :=
      (get_real_image_files_sublist d).subset hmemres
    have hse : (sortByCtime (get_real_image_files d))[k] = e :=
      List.inj_on_of_nodup_map hnd hmemd he hke
    have hacc : acceptEntry e = true := by
      rw [← hse]
      exact List.of_mem_filter hmemres
    have hext : lowerExtOk e.name = true := by
      have hthis := hacc
      unfold acceptEntry at hthis
      simp only [Bool.and_eq_true] at hthis
      exact hthis.1.1.1.1.2
    have hdote : lowerL e.name ∉ [".png".data, ".jpg".data, ".jpeg".data] := by
      have hh := hdot _ hmemres
      rwa [hse] at hh
    have hsuff := accepted_suffix e.name hext hdote
    have hnew : lowerExtOk (expectedName pre k e.name) = true :=
      lowerExtOk_expectedName pre k e.name hsuff
    show (e.isFile && lowerExtOk (expectedName pre k e.name) && e.present &&
        e.statOk && decide (0 < e.size) && e.readOk) =
      (e.isFile && lowerExtOk e.name && e.present && e.statOk &&
        decide (0 < e.size) && e.readOk)
    rw [hnew, hext]

def exDir3 : List Entry :=
  [⟨".png".data, 0, true, true, true, 100, true⟩,
   ⟨"b.png".data, 1, true, true, true, 100, true⟩]

/-- C3 counterexample: a reconciliation pass on a directory containing
the accepted hidden-style file `.png` (empty pathlib suffix) renames it
to the extension-less `H_01`; the first pass itself fully succeeds, the
directory then stays unchanged, yet the second run's computed plan is
not empty (the renamed file is no longer seen as an image, so `b.png`'s
successor `H_02.png` must move to `H_01.png`). -/
theorem c3_counterexample :
    (reorganize_all_files "H".data exDir3).2 = true ∧
    renames "H".data (sortByCtime (get_real_image_files
      (reorganize_all_files "H".data exDir3).1)) ≠ [] := by
  refine ⟨by decide, by decide⟩

/-- C3 amended: after a reconciliation pass in which every rename
succeeds, on a directory with pairwise-distinct names none of whose
resolved image files is named exactly a bare extension (so every
resolved file has a nonempty pathlib suffix), a second run on the
unchanged result computes an empty rename plan — zero renames. -/
theorem c3_idempotent (pre : FName) (d : List Entry)
    (hnd : (d.map Entry.name).Nodup)
    (hok : (reorganize_all_files pre d).2 = true)
    (hdot : ∀ f ∈ get_real_image_files d,
      lowerL f.name ∉ [".png".data, ".jpg".data, ".jpeg".data]) :
    renames pre (sortByCtime (get_real_image_files
      (reorganize_all_files pre d).1)) = [] := by
  obtain ⟨h1, _, _⟩ := reorganize_ok_spec pre d hnd hok
  rw [h1]
  have hsnd := sorted_resolve_names_nodup d hnd
  have hres : get_real_image_files
      (d.map (reassign pre (sortByCtime (get_real_image_files d)))) =
      (get_real_image_files d).map
        (reassign pre (sortByCtime (get_real_image_files d))) := by
    unfold get_real_image_files
    exact filter_map_comm _ _ d (acceptEntry_reassign pre d hnd hdot)
  rw [hres, sortByCtime_map_ctime _ (reassign_ctime pre _) _]
  show renamesAux pre 0 _ = []
  apply renamesAux_of_all_eq
  intro k hk
  have hks : k < (sortByCtime (get_real_image_files d)).length := by
    simpa using hk
  have hmemres : (sortByCtime (get_real_image_files d))[k] ∈
      get_real_image_files d :=
    (sortByCtime_perm _).subset
      ((sortByCtime (get_real_image_files d)).getElem_mem hks)
  have hext : lowerExtOk (sortByCtime (get_real_image_files d))[k].name = true := by
    have hacc : acceptEntry (sortByCtime (get_real_image_files d))[k] = true :=
      List.of_mem_filter hmemres
    unfold acceptEntry at hacc
    simp only [Bool.and_eq_true] at hacc
    exact hacc.1.1.1.1.2
  have hsuffk := accepted_suffix _ hext (hdot _ hmemres)
  rw [List.getElem_map,
    reassign_eq_of_some pre _ _ k (idxOfName_getElem _ hsnd k hks)]
  show expectedName pre k (sortByCtime (get_real_image_files d))[k].name =
    expectedName pre (0 + k)
      (expectedName pre k (sortByCtime (get_real_image_files d))[k].name)
  rw [Nat.zero_add, expectedName_idempotent pre k k _ hsuffk]
  rfl

def exDir3w : List Entry :=
  [⟨"a.png".data, 0, true, true, true, 100, true⟩,
   ⟨"b.JPG".data, 1, true, true, true, 100, true⟩]

theorem c3_idempotent_witness :
    ((exDir3w.map Entry.name).Nodup ∧
      (reorganize_all_files "H".data exDir3w).2 = true ∧
      (∀ f ∈ get_real_image_files exDir3w,
        lowerL f.name ∉ [".png".data, ".jpg".data, ".jpeg".data])) ∧
    renames "H".data (sortByCtime (get_real_image_files
      (reorganize_all_files "H".data exDir3w).1)) = [] :=
  ⟨⟨by decide, by decide, by decide⟩,
   c3_idempotent "H".data exDir3w (by decide) (by decide) (by decide)⟩

def exDir1c : List Entry :=
  [⟨"empty.png".data, 0, true, true, true, 0, true⟩,
   ⟨"b.png".data, 1, true, true, true, 100, true⟩]

/-- C1 counterexample (original implementation): its glob listing
performs no size or read check, so the zero-byte `empty.png` is sorted
and renamed into the numbered sequence by a pass in which every rename
succeeds.  Before the pass the only accessible image file is `b.png`
(one file, so the claim demands the name set `{H_01.png}`); after the
pass it is named `H_02.png` — the accessible files' names have a gap at
`01`, which is occupied by the inaccessible zero-byte entry. -/
theorem c1_counterexample :
    (get_real_image_files exDir1c).map Entry.name = ["b.png".data] ∧
    (reorganize_all_files_orig "H".data exDir1c).2 = true ∧
    (reorganize_all_files_orig "H".data exDir1c).1.map Entry.name =
      ["H_01.png".data, "H_02.png".data] ∧
    (get_real_image_files
      (reorganize_all_files_orig "H".data exDir1c).1).map Entry.name =
      ["H_02.png".data] := by
  refine ⟨by decide, by decide, by decide, by decide⟩
